import Mathlib

/-!
# The vc4 buffer-object cache (`drivers/gpu/drm/vc4/vc4_bo.c`)

A shallow embedding of the kernel BO cache of the vc4 DRM driver and the
properties of it that the design document states.

Modelling conventions.

* A `struct vc4_bo` is a record; the field `id` stands for the address of the
  object, so two records with the same `id` describe the same object.
* The two intrusive lists of the C code are Lean lists, head first:
  `list_add` is `cons`, `list_first_entry` is the head, `list_last_entry` is the
  last element, `list_del` erases the entry.
* `bo_cache.size_list` is a list of buckets and `bo_cache.size_list_size` is its
  length. A pointer `&size_list[i]` is the index `i`; a write through a pointer
  that lies outside the array does not change the array.
* The sizes of the buffer objects that reach the cache are at least one page and
  have a page count below `2 ^ 32` (`gem_size_ok`); for these every bucket pointer
  that the lookup returns lies inside the array (`lookup_spec`).
* `uint32_t` arithmetic is arithmetic modulo `2 ^ 32`; a `size_t` is a natural
  number.
* Times are integers that do not wrap; `time_before_ulong_eq` relates this to the
  wrapping `unsigned long` of the kernel.
* The outcome of `kmalloc` and of `drm_gem_cma_create` is supplied by the caller
  of the model (they are external to the cache).
* Calls to the external collaborators are recorded in a list of `Call`s, in the
  order in which they are made.
* One call of a cache operation runs within one timer tick, at the time `now`.
* `time_timer` is the deadline that is pending on the timer: `mod_timer` sets it,
  and it is cleared when the timer fires (`timer_fires`).
* `vc4_drm_unload` of `vc4_drv.c` is a sequence of external calls that ends with
  the `kfree` of the device structure.
-/

namespace VC4

/-! ## Data model -/

/-- Build-time constants and helpers of the kernel that `vc4_bo.c` uses but does
not define. -/
structure Kconfig where
  /-- Bytes per page (`PAGE_SIZE`). -/
  PAGE_SIZE : Nat
  /-- Timer ticks per second (`HZ`). -/
  HZ : Nat
  /-- Width in bits of `unsigned long` and `size_t`. -/
  BITS_PER_LONG : Nat
  /-- The kernel helper that rounds a deadline up to a coarse tick boundary. -/
  round_jiffies_up : Int → Int

/-- The fields of `struct vc4_bo` (and of the GEM object embedded in it) that
the cache reads or writes. -/
structure vc4_bo where
  /-- Address of the object: its identity. -/
  id : Nat
  /-- Field `base.base.size`, in bytes. -/
  size : Nat
  /-- Whether `base.base.import_attach` is a non-null pointer. -/
  import_attach : Bool
  /-- Field `base.base.name`, the public (flink) name; zero when unnamed. -/
  name : Nat
  /-- Field `free_time`: the time of the last release into the cache. -/
  free_time : Int
  /-- Field `base.base.refcount`. -/
  refcount : Nat
deriving DecidableEq, Repr

/-- The member `bo_cache` of `struct vc4_dev`. -/
structure vc4_bo_cache where
  /-- The bucket array `size_list`; bucket `i` holds the cached BOs whose page
  index is `i`, most recently released first. -/
  size_list : List (List vc4_bo)
  /-- The recency queue `time_list`, most recently released first. -/
  time_list : List vc4_bo
  /-- The pending deadline of `time_timer`, if the timer is armed. -/
  time_timer : Option Int
deriving DecidableEq, Repr

/-- Field `bo_cache.size_list_size`: the number of buckets of the array. -/
def vc4_bo_cache.size_list_size (c : vc4_bo_cache) : Nat := c.size_list.length

/-- Calls that the cache makes to its external collaborators. -/
inductive Call where
  | drm_gem_cma_create (size : Nat)
  | drm_gem_cma_free_object (bo : vc4_bo)
  | mod_timer (expires : Int)
  | drm_gem_handle_create (bo : vc4_bo)
  | drm_gem_object_unreference_unlocked (bo : vc4_bo)
deriving DecidableEq, Repr

/-- A cache state together with the external calls made on the way to it. -/
structure Outcome where
  cache : vc4_bo_cache
  calls : List Call
deriving DecidableEq, Repr

/-- The result of `vc4_bo_create`: the returned pointer (`none` is `NULL`), the
cache state and the external calls made. -/
structure CreateResult where
  bo : Option vc4_bo
  cache : vc4_bo_cache
  calls : List Call
deriving DecidableEq, Repr

/-! ## Kernel helpers -/

/-- Modelled from the spec: `jiffies.h` is not part of the sources at hand. The
design document calls the time stamps "the current monotonic time" and the grace
period "1 second", so times are integers that do not wrap, and
`msecs_to_jiffies m` is the number of ticks that cover `m` milliseconds. -/
def msecs_to_jiffies (k : Kconfig) (m : Nat) : Int := ((m * k.HZ + 999) / 1000 : Nat)

/-- Modelled from the spec: `jiffies.h` is not part of the sources at hand.
"Time `a` is before time `b`" on the monotonic, non-wrapping time of the design
document. -/
def time_before (a b : Int) : Bool := decide (a < b)

/-- The wrap-safe comparison of the kernel, `(long)(a - b) < 0`, on values of an
`unsigned long` of `w` bits. It is given for comparison with `time_before`; see
`time_before_ulong_eq`. -/
def time_before_ulong (w : Nat) (a b : Nat) : Bool :=
  decide (2 ^ (w - 1) ≤ (a % 2 ^ w + 2 ^ w - b % 2 ^ w) % 2 ^ w)

/-- The value `jiffies - msecs_to_jiffies(1000)` computed in an `unsigned long` of
`w` bits. -/
def expire_time_ulong (w : Nat) (now grace : Nat) : Nat :=
  (now % 2 ^ w + 2 ^ w - grace % 2 ^ w) % 2 ^ w

/-- The kernel list primitive `list_add(new, head)` applied to the bucket at
index `i` of the array: `new` becomes the first entry of that bucket. An index
outside the array leaves the array as it is; the C code has no defined behaviour
for such a call (it writes through a pointer outside the array), and it occurs
for no size that satisfies `gem_size_ok`. -/
def list_add_bucket (bo : vc4_bo) (i : Nat) (size_list : List (List vc4_bo)) :
    List (List vc4_bo) :=
  size_list.set i (bo :: size_list.getD i [])

/-- The kernel list primitive `list_del(&bo->size_head)`: `bo` is unlinked from
the bucket that holds it. -/
def list_del_size_head (bo : vc4_bo) (size_list : List (List vc4_bo)) :
    List (List vc4_bo) :=
  size_list.map (fun l => l.erase bo)

/-! ## The functions of `vc4_bo.c` -/

/-- Embedding of `bo_page_index`: `(size / PAGE_SIZE) - 1`, computed in `size_t`
and returned as `uint32_t`. -/
def bo_page_index (k : Kconfig) (size : Nat) : Nat :=
  (size / k.PAGE_SIZE + (2 ^ 32 - 1)) % 2 ^ 32

/-- The value of `new_size` in `vc4_get_cache_list_for_size`:
`max(size_list_size * 2, page_index + 1)` in `uint32_t`. -/
def new_size (size_list_size page_index : Nat) : Nat :=
  max ((size_list_size * 2) % 2 ^ 32) ((page_index + 1) % 2 ^ 32)

/-- Embedding of `vc4_get_cache_list_for_size`. The result `none` is `NULL`;
`some (i, c)` is the pointer `&size_list[i]` together with the cache after the
call. `kmalloc_ok` tells whether the allocation of the new array succeeds.

The two `for` loops copy the old buckets to the same slots of the new array and
initialise the remaining slots as empty lists. If the 32-bit value `new_size` is
smaller than the old capacity the C loop writes past the end of the new array,
which has no defined behaviour; the model keeps the buckets that fit. This occurs
for no size that satisfies `gem_size_ok`: the new capacity then exceeds the key,
which is at least the old capacity. -/
def vc4_get_cache_list_for_size (k : Kconfig) (kmalloc_ok : Bool) (c : vc4_bo_cache)
    (size : Nat) : Option (Nat × vc4_bo_cache) :=
  let page_index := bo_page_index k size
  if c.size_list_size ≤ page_index then
    let n := new_size c.size_list_size page_index
    if kmalloc_ok then
      let new_list := c.size_list.take n ++ List.replicate (n - c.size_list_size) []
      some (page_index, { c with size_list := new_list })
    else
      none
  else
    some (page_index, c)

/-- Embedding of `vc4_bo_create`. `drm_gem_cma_create` is the external
allocator; it yields `none` when the C function returns an error pointer. -/
def vc4_bo_create (k : Kconfig) (drm_gem_cma_create : Nat → Option vc4_bo)
    (c : vc4_bo_cache) (size : Nat) : CreateResult :=
  let page_index := bo_page_index k size
  let found : Option vc4_bo × vc4_bo_cache :=
    if c.size_list_size > page_index then
      match c.size_list.getD page_index [] with
      | [] => (none, c)
      | bo :: rest =>
        (some bo, { c with size_list := c.size_list.set page_index rest,
                           time_list := c.time_list.erase bo })
    else (none, c)
  match found.1 with
  | some bo => ⟨some { bo with refcount := 1 }, found.2, []⟩
  | none =>
    match drm_gem_cma_create size with
    | none => ⟨none, found.2, [Call.drm_gem_cma_create size]⟩
    | some cma_obj => ⟨some cma_obj, found.2, [Call.drm_gem_cma_create size]⟩

/-- The `while` loop of `vc4_bo_cache_free_old`, with the number of iterations
bounded by `fuel`. -/
def free_old_loop (k : Kconfig) (now : Int) : Nat → vc4_bo_cache → Outcome
  | 0, c => ⟨c, []⟩
  | fuel + 1, c =>
    match c.time_list.getLast? with
    | none => ⟨c, []⟩
    | some bo =>
      if time_before (now - msecs_to_jiffies k 1000) bo.free_time then
        let expires := k.round_jiffies_up (now + msecs_to_jiffies k 1000)
        ⟨{ c with time_timer := some expires }, [Call.mod_timer expires]⟩
      else
        let r := free_old_loop k now fuel
          { c with time_list := c.time_list.dropLast,
                   size_list := list_del_size_head bo c.size_list }
        ⟨r.cache, Call.drm_gem_cma_free_object bo :: r.calls⟩

/-- Embedding of `vc4_bo_cache_free_old`, run at time `now`. Every iteration of
the loop either returns or removes one entry, so the length of the queue is
enough fuel. -/
def vc4_bo_cache_free_old (k : Kconfig) (now : Int) (c : vc4_bo_cache) : Outcome :=
  free_old_loop k now c.time_list.length c

/-- Embedding of `vc4_free_object`, run at time `now`. -/
def vc4_free_object (k : Kconfig) (kmalloc_ok : Bool) (now : Int) (c : vc4_bo_cache)
    (gem_bo : vc4_bo) : Outcome :=
  if gem_bo.import_attach then
    ⟨c, [Call.drm_gem_cma_free_object gem_bo]⟩
  else if gem_bo.name ≠ 0 then
    ⟨c, [Call.drm_gem_cma_free_object gem_bo]⟩
  else
    match vc4_get_cache_list_for_size k kmalloc_ok c gem_bo.size with
    | none => ⟨c, [Call.drm_gem_cma_free_object gem_bo]⟩
    | some (cache_list, c1) =>
      let bo : vc4_bo := { gem_bo with free_time := now }
      vc4_bo_cache_free_old k now
        { c1 with size_list := list_add_bucket bo cache_list c1.size_list,
                  time_list := bo :: c1.time_list }

/-- Embedding of `vc4_bo_cache_time_work`: the deferred work runs the sweep. -/
def vc4_bo_cache_time_work (k : Kconfig) (now : Int) (c : vc4_bo_cache) : Outcome :=
  vc4_bo_cache_free_old k now c

/-- Embedding of `vc4_bo_cache_init`, applied to the zero-filled `struct vc4_dev`
that `vc4_drm_load` allocates: no bucket array, an empty recency queue, and a
timer that is set up but not armed. -/
def vc4_bo_cache_init : vc4_bo_cache := ⟨[], [], none⟩

/-! ## The dumb-buffer entry point -/

/-- The argument block `struct drm_mode_create_dumb`: all fields are 32-bit
unsigned, except `size`, which is 64-bit unsigned. -/
structure drm_mode_create_dumb where
  height : Nat
  width : Nat
  bpp : Nat
  flags : Nat
  handle : Nat
  pitch : Nat
  size : Nat
deriving DecidableEq, Repr

/-- The result of `vc4_dumb_create`: the returned `int`, the argument block as the
function leaves it, the cache state and the external calls made. -/
structure DumbResult where
  ret : Int
  args : drm_mode_create_dumb
  cache : vc4_bo_cache
  calls : List Call
deriving DecidableEq, Repr

/-- The errno value `ENOMEM`. -/
def ENOMEM : Int := 12

/-- The kernel helper `DIV_ROUND_UP(n, d)`, `(n + d - 1) / d`, on 32-bit unsigned
operands. -/
def DIV_ROUND_UP (n d : Nat) : Nat := ((n + d - 1) % 2 ^ 32) / d

/-- The kernel helper `roundup(x, y)`, `((x + (y - 1)) / y) * y`, on 64-bit
unsigned operands. -/
def roundup (x y : Nat) : Nat := ((((x + (y - 1)) % 2 ^ 64) / y) * y) % 2 ^ 64

/-- The first part of `vc4_dumb_create`: the argument block after `pitch` has
been raised to the minimum pitch and `size` to `pitch * height`. -/
def dumb_fixup (args : drm_mode_create_dumb) : drm_mode_create_dumb :=
  let min_pitch := DIV_ROUND_UP ((args.width * args.bpp) % 2 ^ 32) 8
  let args1 := if args.pitch < min_pitch then { args with pitch := min_pitch } else args
  if args1.size < (args1.pitch * args1.height) % 2 ^ 32 then
    { args1 with size := (args1.pitch * args1.height) % 2 ^ 32 }
  else args1

/-- The size that `vc4_dumb_create` passes to `vc4_bo_create`:
`roundup(args->size, PAGE_SIZE)`, converted to `size_t`. -/
def dumb_size (k : Kconfig) (args : drm_mode_create_dumb) : Nat :=
  roundup (dumb_fixup args).size k.PAGE_SIZE % 2 ^ k.BITS_PER_LONG

/-- Embedding of `vc4_dumb_create`. `drm_gem_handle_create` is the external
function that creates a handle for the object: it yields the returned `int` and
the handle that it stores through the pointer `&args->handle` on success. -/
def vc4_dumb_create (k : Kconfig) (drm_gem_cma_create : Nat → Option vc4_bo)
    (drm_gem_handle_create : vc4_bo → Int × Nat) (c : vc4_bo_cache)
    (args : drm_mode_create_dumb) : DumbResult :=
  let args2 := dumb_fixup args
  let r := vc4_bo_create k drm_gem_cma_create c (dumb_size k args)
  match r.bo with
  | none => ⟨-ENOMEM, args2, r.cache, r.calls⟩
  | some bo =>
    let h := drm_gem_handle_create bo
    ⟨h.1, if h.1 = 0 then { args2 with handle := h.2 } else args2, r.cache,
      r.calls ++ [Call.drm_gem_handle_create bo, Call.drm_gem_object_unreference_unlocked bo]⟩

/-! ## The unload path of `vc4_drv.c` -/

/-- The register mappings that `vc4_drm_unload` releases. -/
inductive RegisterMap where
  | vc4_regs
  | hvs_regs
  | hvs_ctx
deriving DecidableEq, Repr

/-- Calls that a device shutdown path can make. `vc4_drm_unload` makes the first
five kinds; `cancel_work_sync` and `del_timer_sync` are the kernel calls that
drain a work item and disarm a timer. -/
inductive TeardownCall where
  | drm_mode_config_cleanup
  | drm_irq_uninstall
  | vc4_set_platform_qpu_enable (enable : Bool)
  | devm_iounmap (map : RegisterMap)
  | kfree_dev_private
  | cancel_work_sync_time_work
  | del_timer_sync_time_timer
deriving DecidableEq, Repr

/-- The part of `struct vc4_dev` that matters for the teardown of the cache. -/
structure vc4_dev where
  /-- The member `bo_cache`. -/
  bo_cache : vc4_bo_cache
  /-- Whether `bo_cache.time_work` is queued and has not run yet. -/
  time_work_pending : Bool
  /-- Whether the structure has been passed to `kfree`. -/
  freed : Bool
deriving DecidableEq, Repr

/-- The result of `vc4_drm_unload`: the returned `int`, the device structure as
the function leaves it and the calls made, in order. -/
structure UnloadResult where
  ret : Int
  dev : vc4_dev
  calls : List TeardownCall
deriving DecidableEq, Repr

/-- Embedding of `vc4_drm_unload`: seven calls in a row, the last of which frees
the device structure; no statement of the function touches `bo_cache`. -/
def vc4_drm_unload (d : vc4_dev) : UnloadResult :=
  ⟨0, { d with freed := true },
    [TeardownCall.drm_mode_config_cleanup,
     TeardownCall.drm_irq_uninstall,
     TeardownCall.vc4_set_platform_qpu_enable false,
     TeardownCall.devm_iounmap RegisterMap.vc4_regs,
     TeardownCall.devm_iounmap RegisterMap.hvs_regs,
     TeardownCall.devm_iounmap RegisterMap.hvs_ctx,
     TeardownCall.kfree_dev_private]⟩

/-- The claim "the work is drained and the timer is disarmed before the device
structure is freed", for a list of calls: both calls occur in the part of the list
that precedes `kfree`. -/
def drained_before_free (calls : List TeardownCall) : Prop :=
  TeardownCall.cancel_work_sync_time_work ∈
      calls.takeWhile (fun x => x != TeardownCall.kfree_dev_private) ∧
    TeardownCall.del_timer_sync_time_timer ∈
      calls.takeWhile (fun x => x != TeardownCall.kfree_dev_private)

instance (calls : List TeardownCall) : Decidable (drained_before_free calls) := by
  unfold drained_before_free; infer_instance

/-! ## Closed form of the sweep -/

/-- Whether the sweep at time `now` evicts `bo` when it reaches it: the test
`time_before(expire_time, bo->free_time)` of the loop fails. -/
def expired (k : Kconfig) (now : Int) (bo : vc4_bo) : Bool :=
  !time_before (now - msecs_to_jiffies k 1000) bo.free_time

/-- The entries that the sweep at time `now` evicts, oldest first: the longest
run of expired entries at the tail of the recency queue. -/
def evicted (k : Kconfig) (now : Int) (c : vc4_bo_cache) : List vc4_bo :=
  c.time_list.reverse.takeWhile (expired k now)

/-- The entries that the sweep at time `now` keeps, in queue order. -/
def retained (k : Kconfig) (now : Int) (c : vc4_bo_cache) : List vc4_bo :=
  (c.time_list.reverse.dropWhile (expired k now)).reverse

/-- The closed form of `vc4_bo_cache_free_old`; `free_old_eq_summary` shows that
the loop computes it. -/
def free_old_summary (k : Kconfig) (now : Int) (c : vc4_bo_cache) : Outcome :=
  let size_list := (evicted k now c).foldl (fun L bo => list_del_size_head bo L) c.size_list
  let frees := (evicted k now c).map Call.drm_gem_cma_free_object
  let expires := k.round_jiffies_up (now + msecs_to_jiffies k 1000)
  if retained k now c = [] then
    ⟨⟨size_list, [], c.time_timer⟩, frees⟩
  else
    ⟨⟨size_list, retained k now c, some expires⟩, frees ++ [Call.mod_timer expires]⟩

/-! ## Reachable states and the properties stated about them -/

/-- The states that the cache can reach from the state `c0` by calls of
`vc4_bo_create`, `vc4_free_object` and `vc4_bo_cache_free_old`, made at arbitrary
times and with arbitrary outcomes of the external allocators. `G c bo` is the
condition under which `bo` may be released in state `c`. -/
inductive Reachable (k : Kconfig) (G : vc4_bo_cache → vc4_bo → Prop) (c0 : vc4_bo_cache) :
    vc4_bo_cache → Prop where
  | start : Reachable k G c0 c0
  | acquire {c : vc4_bo_cache} (drm_gem_cma_create : Nat → Option vc4_bo) (size : Nat) :
      Reachable k G c0 c → Reachable k G c0 (vc4_bo_create k drm_gem_cma_create c size).cache
  | release {c : vc4_bo_cache} (kmalloc_ok : Bool) (now : Int) (bo : vc4_bo) :
      Reachable k G c0 c → G c bo →
      Reachable k G c0 (vc4_free_object k kmalloc_ok now c bo).cache
  | sweep {c : vc4_bo_cache} (now : Int) :
      Reachable k G c0 c → Reachable k G c0 (vc4_bo_cache_free_old k now c).cache

/-- The object `bo` is live in state `c`: no entry of the recency queue and no
entry of a bucket is this object. -/
def live (c : vc4_bo_cache) (bo : vc4_bo) : Prop :=
  (∀ x ∈ c.time_list, x.id ≠ bo.id) ∧ (∀ l ∈ c.size_list, ∀ x ∈ l, x.id ≠ bo.id)

/-- The number of pages of `bo` is not a multiple of `2 ^ 32`, so that the 32-bit
value `bo_page_index + 1` does not wrap to zero. Every size with
`1 ≤ size / PAGE_SIZE ≤ 2 ^ 32 - 1` qualifies. -/
def page_count_ok (k : Kconfig) (size : Nat) : Prop :=
  (size / k.PAGE_SIZE) % 2 ^ 32 ≠ 0

/-- The sizes of the buffer objects that reach the cache. A GEM object has at
least one page: for a smaller size `bo_page_index` wraps to `2 ^ 32 - 1` and
`vc4_free_object` would write through `&size_list[2 ^ 32 - 1]`, outside the
array. Its page count fits the `uint32_t` that `bo_page_index` returns: this holds
for every value of a `size_t` of 32 bits, the width on the ARM platform that
`vc4_drv.c` is written for (`gem_size_ok_of_lt`). -/
def gem_size_ok (k : Kconfig) (size : Nat) : Prop :=
  0 < k.PAGE_SIZE ∧ k.PAGE_SIZE ≤ size ∧ size / k.PAGE_SIZE < 2 ^ 32

instance (c : vc4_bo_cache) (bo : vc4_bo) : Decidable (live c bo) := by
  unfold live; infer_instance

instance (k : Kconfig) (size : Nat) : Decidable (gem_size_ok k size) := by
  unfold gem_size_ok; infer_instance

instance (k : Kconfig) (size : Nat) : Decidable (page_count_ok k size) := by
  unfold page_count_ok; infer_instance

/-- Membership parity: a buffer is in some bucket exactly when it is in the
recency queue, and every cached object occurs once in the queue and once in the
buckets taken together (so in one bucket, once). -/
def membership_parity (c : vc4_bo_cache) : Prop :=
  (∀ b : vc4_bo, (∃ l ∈ c.size_list, b ∈ l) ↔ b ∈ c.time_list) ∧
  (∀ b ∈ c.time_list,
    (c.time_list.map vc4_bo.id).count b.id = 1 ∧
    (c.size_list.flatten.map vc4_bo.id).count b.id = 1)

/-- The invariant behind membership parity: the objects of the recency queue are
pairwise distinct, and the buckets taken together hold the entries of the queue. -/
def lockstep (c : vc4_bo_cache) : Prop :=
  (c.time_list.map vc4_bo.id).Nodup ∧ c.size_list.flatten.Perm c.time_list

/-- The size is a positive whole multiple of `PAGE_SIZE`. -/
def page_multiple (k : Kconfig) (size : Nat) : Prop :=
  0 < size ∧ size % k.PAGE_SIZE = 0

instance (k : Kconfig) (size : Nat) : Decidable (page_multiple k size) := by
  unfold page_multiple; infer_instance

/-- Every buffer held in bucket `i` has size `(i + 1) * PAGE_SIZE`. -/
def bucket_sizes (k : Kconfig) (c : vc4_bo_cache) : Prop :=
  ∀ i : Nat, ∀ b ∈ c.size_list.getD i [], b.size = (i + 1) * k.PAGE_SIZE

/-- A run of sweeps, one at each of the times `ts`, in order. -/
def sweeps (k : Kconfig) (ts : List Int) (c : vc4_bo_cache) : vc4_bo_cache :=
  ts.foldl (fun c t => (vc4_bo_cache_free_old k t c).cache) c

instance (c : vc4_bo_cache) : Decidable (lockstep c) := by
  unfold lockstep; infer_instance

/-- The recency queue is ordered by release time: `free_time` does not increase
from the head of the queue to its tail. -/
def time_ordered (c : vc4_bo_cache) : Prop :=
  c.time_list.Pairwise (fun a b => b.free_time ≤ a.free_time)

instance (c : vc4_bo_cache) : Decidable (time_ordered c) := by
  unfold time_ordered; infer_instance

/-! ## The clock and the timer -/

/-- The timer `time_timer` fires and the work that it schedules runs, taken as one step
at time `now`: the kernel takes an expired timer off its pending list before it
calls `vc4_bo_cache_time_timer`, which schedules `time_work`, whose function
`vc4_bo_cache_time_work` runs the sweep. -/
def timer_fires (k : Kconfig) (now : Int) (c : vc4_bo_cache) : Outcome :=
  vc4_bo_cache_time_work k now { c with time_timer := none }

/-- The states that the cache can reach from the initialised empty cache under a
clock that does not go back: `ReachableAt k G t c` says that `c` is reached with
the clock at `t`. The steps are calls of `vc4_bo_create`, `vc4_free_object` (of a
buffer that satisfies `G`) and `vc4_bo_cache_free_old`, and the firing of the
timer at a time that is not before its pending deadline. -/
inductive ReachableAt (k : Kconfig) (G : vc4_bo_cache → vc4_bo → Prop) :
    Int → vc4_bo_cache → Prop where
  | start (t : Int) : ReachableAt k G t vc4_bo_cache_init
  | acquire {t : Int} {c : vc4_bo_cache} (now : Int) (drm_gem_cma_create : Nat → Option vc4_bo)
      (size : Nat) : t ≤ now → ReachableAt k G t c →
      ReachableAt k G now (vc4_bo_create k drm_gem_cma_create c size).cache
  | release {t : Int} {c : vc4_bo_cache} (now : Int) (kmalloc_ok : Bool) (bo : vc4_bo) :
      t ≤ now → ReachableAt k G t c → G c bo →
      ReachableAt k G now (vc4_free_object k kmalloc_ok now c bo).cache
  | sweep {t : Int} {c : vc4_bo_cache} (now : Int) : t ≤ now → ReachableAt k G t c →
      ReachableAt k G now (vc4_bo_cache_free_old k now c).cache
  | timer {t : Int} {c : vc4_bo_cache} (now : Int) (deadline : Int) : t ≤ now →
      c.time_timer = some deadline → deadline ≤ now → ReachableAt k G t c →
      ReachableAt k G now (timer_fires k now c).cache

/-- Whether the buffer `x` belongs to the size class of bucket `j`. -/
def in_class (k : Kconfig) (j : Nat) (x : vc4_bo) : Bool :=
  bo_page_index k x.size == j

/-- Every bucket holds the newest cached buffers of its size class, in the order
of the recency queue: bucket `j` is an initial segment of the queue restricted to
the class of `j`. -/
def lifo (k : Kconfig) (c : vc4_bo_cache) : Prop :=
  ∀ j : Nat, c.size_list.getD j [] <+: c.time_list.filter (in_class k j)

/-- The timer covers the queue: if the recency queue is not empty, a deadline is
pending on the timer and no cached buffer expires after it. -/
def timer_covers (k : Kconfig) (c : vc4_bo_cache) : Prop :=
  c.time_list ≠ [] →
    ∃ d, c.time_timer = some d ∧
      ∀ b ∈ c.time_list, b.free_time + msecs_to_jiffies k 1000 ≤ d

/-! ## Concrete configurations and buffers used in examples -/

/-- A 32-bit configuration: 4096-byte pages, 100 ticks per second, deadlines
rounded up to a whole second. -/
def k32 : Kconfig := ⟨4096, 100, 32, fun x => (x + 99) / 100 * 100⟩

/-- A one-page buffer whose last reference has been dropped. -/
def boA : vc4_bo := ⟨1, 4096, false, 0, 0, 0⟩

/-- A two-page buffer whose last reference has been dropped. -/
def boB : vc4_bo := ⟨2, 8192, false, 0, 0, 0⟩

/-- A one-page buffer with the public name 17. -/
def boNamed : vc4_bo := ⟨5, 4096, false, 17, 0, 0⟩

/-- A second one-page buffer whose last reference has been dropped. -/
def boD : vc4_bo := ⟨8, 4096, false, 0, 0, 0⟩

/-! ## Basic facts about the sweep -/

theorem reverse_of_getLast? {l : List vc4_bo} {bo : vc4_bo} (h : l.getLast? = some bo) :
    l.reverse = bo :: l.dropLast.reverse := by
  have h1 : l.dropLast ++ [bo] = l := List.dropLast_append_getLast? bo (by simp [h])
  conv_lhs => rw [← h1]
  simp

theorem free_old_loop_eq_summary (k : Kconfig) (now : Int) (fuel : Nat) :
    ∀ c : vc4_bo_cache, c.time_list.length ≤ fuel →
      free_old_loop k now fuel c = free_old_summary k now c := by
  induction fuel with
  | zero =>
    rintro ⟨L, tl, tm⟩ hc
    have h0 : tl = [] := List.length_eq_zero.mp (Nat.le_zero.mp hc)
    subst h0
    simp [free_old_loop, free_old_summary, retained, evicted]
  | succ fuel ih =>
    rintro ⟨L, tl, tm⟩ hc
    cases hl : tl.getLast? with
    | none =>
      have h0 : tl = [] := List.getLast?_eq_none_iff.mp hl
      subst h0
      simp [free_old_loop, free_old_summary, retained, evicted]
    | some bo =>
      have hrev := reverse_of_getLast? hl
      have happ : tl = tl.dropLast ++ [bo] :=
        (List.dropLast_append_getLast? bo (by simp [hl])).symm
      have hlen : tl.dropLast.length ≤ fuel := by
        simp only [List.length_dropLast]
        simp only at hc
        omega
      by_cases hb : time_before (now - msecs_to_jiffies k 1000) bo.free_time = true
      · have he : expired k now bo = false := by simp [expired, hb]
        simp [free_old_loop, hl, hb, free_old_summary, retained, evicted, hrev, he,
          List.takeWhile_cons, List.dropWhile_cons]
        exact happ
      · have he : expired k now bo = true := by simp [expired, hb]
        have ih1 := ih ⟨list_del_size_head bo L, tl.dropLast, tm⟩ hlen
        simp only [free_old_loop, hl, hb, ih1]
        simp [free_old_summary, retained, evicted, hrev, he, List.takeWhile_cons,
          List.dropWhile_cons]
        split <;> simp

theorem free_old_eq_summary (k : Kconfig) (now : Int) (c : vc4_bo_cache) :
    vc4_bo_cache_free_old k now c = free_old_summary k now c :=
  free_old_loop_eq_summary k now c.time_list.length c (Nat.le_refl _)

/-! ## Facts about the bucket array -/

theorem getD_set_bucket (L : List (List vc4_bo)) (i j : Nat) (a : List vc4_bo) :
    (L.set i a).getD j [] = if i = j ∧ i < L.length then a else L.getD j [] := by
  simp only [List.getD_eq_getElem?_getD, List.getElem?_set]
  by_cases hij : i = j
  · subst hij
    by_cases hi : i < L.length
    · simp [hi]
    · have : L[i]? = none := by simp; omega
      simp [hi, this]
  · simp [hij]

theorem getD_list_add_bucket (bo : vc4_bo) (i j : Nat) (L : List (List vc4_bo)) :
    (list_add_bucket bo i L).getD j [] =
      if i = j ∧ i < L.length then bo :: L.getD i [] else L.getD j [] := by
  unfold list_add_bucket
  rw [getD_set_bucket]

theorem length_list_add_bucket (bo : vc4_bo) (i : Nat) (L : List (List vc4_bo)) :
    (list_add_bucket bo i L).length = L.length := by
  simp [list_add_bucket]

theorem getD_list_del_size_head (bo : vc4_bo) (j : Nat) (L : List (List vc4_bo)) :
    (list_del_size_head bo L).getD j [] = (L.getD j []).erase bo := by
  have h := List.getD_map L [] (n := j) (fun l : List vc4_bo => l.erase bo)
  simpa [list_del_size_head] using h

theorem length_list_del_size_head (bo : vc4_bo) (L : List (List vc4_bo)) :
    (list_del_size_head bo L).length = L.length := by
  simp [list_del_size_head]

theorem getD_foldl_del (g : List vc4_bo) (j : Nat) :
    ∀ L : List (List vc4_bo),
      (g.foldl (fun L bo => list_del_size_head bo L) L).getD j [] = (L.getD j []).diff g := by
  induction g with
  | nil => intro L; simp
  | cons a g ih =>
    intro L
    simp only [List.foldl_cons, ih, getD_list_del_size_head, List.diff_cons]

theorem length_foldl_del (g : List vc4_bo) :
    ∀ L : List (List vc4_bo),
      (g.foldl (fun L bo => list_del_size_head bo L) L).length = L.length := by
  induction g with
  | nil => intro L; simp
  | cons a g ih =>
    intro L
    simp only [List.foldl_cons, ih, length_list_del_size_head]

theorem getD_grow (L : List (List vc4_bo)) (n j : Nat) (h : L.length ≤ n) :
    (L.take n ++ List.replicate (n - L.length) []).getD j [] = L.getD j [] := by
  rw [List.take_of_length_le h]
  simp only [List.getD_eq_getElem?_getD, List.getElem?_append, List.getElem?_replicate]
  by_cases hj : j < L.length
  · simp [hj]
  · have : L[j]? = none := by simp; omega
    simp [hj, this]
    split <;> simp

theorem length_grow (L : List (List vc4_bo)) (n : Nat) :
    (L.take n ++ List.replicate (n - L.length) []).length = n := by
  simp only [List.length_append, List.length_take, List.length_replicate]
  omega

/-! ## Facts about the sweep -/

theorem free_old_time_list (k : Kconfig) (now : Int) (c : vc4_bo_cache) :
    (vc4_bo_cache_free_old k now c).cache.time_list = retained k now c := by
  rw [free_old_eq_summary]
  unfold free_old_summary
  split
  · next h => simp [h]
  · simp

theorem free_old_size_list (k : Kconfig) (now : Int) (c : vc4_bo_cache) :
    (vc4_bo_cache_free_old k now c).cache.size_list =
      (evicted k now c).foldl (fun L bo => list_del_size_head bo L) c.size_list := by
  rw [free_old_eq_summary]
  unfold free_old_summary
  split <;> simp

theorem free_old_bucket (k : Kconfig) (now : Int) (c : vc4_bo_cache) (j : Nat) :
    (vc4_bo_cache_free_old k now c).cache.size_list.getD j [] =
      (c.size_list.getD j []).diff (evicted k now c) := by
  rw [free_old_size_list, getD_foldl_del]

theorem free_old_size_list_size (k : Kconfig) (now : Int) (c : vc4_bo_cache) :
    (vc4_bo_cache_free_old k now c).cache.size_list_size = c.size_list_size := by
  simp [vc4_bo_cache.size_list_size, free_old_size_list, length_foldl_del]

theorem retained_append_evicted (k : Kconfig) (now : Int) (c : vc4_bo_cache) :
    retained k now c ++ (evicted k now c).reverse = c.time_list := by
  have h := List.takeWhile_append_dropWhile (expired k now) c.time_list.reverse
  unfold retained evicted
  rw [← List.reverse_append, h, List.reverse_reverse]

theorem expired_of_mem_evicted {k : Kconfig} {now : Int} {c : vc4_bo_cache} {bo : vc4_bo}
    (h : bo ∈ evicted k now c) : expired k now bo = true :=
  List.mem_takeWhile_imp h

theorem expired_iff (k : Kconfig) (now : Int) (bo : vc4_bo) :
    expired k now bo = true ↔ msecs_to_jiffies k 1000 ≤ now - bo.free_time := by
  simp [expired, time_before]
  omega

theorem msecs_to_jiffies_1000 (k : Kconfig) : msecs_to_jiffies k 1000 = k.HZ := by
  unfold msecs_to_jiffies
  congr 1
  omega

/-! ## The time model -/

/-- On a 32-bit or 64-bit `unsigned long`, the wrap-safe comparison of the kernel
agrees with the comparison on non-wrapping time used in this development, as long
as the buffer was released at most half the range of `unsigned long` before
`now` and the grace period is below half the range. -/
theorem time_before_ulong_eq (w : Nat) (hw : w = 32 ∨ w = 64) (now free_time grace : Nat)
    (hnow : now < 2 ^ w) (hft : free_time ≤ now) (hwin : now - free_time < 2 ^ (w - 1))
    (hgrace : grace < 2 ^ (w - 1)) :
    time_before_ulong w (expire_time_ulong w now grace) free_time =
      time_before ((now : Int) - grace) free_time := by
  rcases hw with rfl | rfl
  · simp only [time_before_ulong, expire_time_ulong, time_before] at *
    norm_num at *
    omega
  · simp only [time_before_ulong, expire_time_ulong, time_before] at *
    norm_num at *
    omega

/-- An instance of `time_before_ulong_eq`: at the first tick after the 32-bit
counter has passed 99, a buffer released at tick 40 is compared alike. -/
theorem time_before_ulong_eq_example :
    time_before_ulong 32 (expire_time_ulong 32 50 100) 40 =
      time_before ((50 : Int) - (100 : Nat)) (40 : Nat) :=
  time_before_ulong_eq 32 (Or.inl rfl) 50 40 100 (by decide) (by decide) (by decide)
    (by decide)

/-! ## An induction principle for the sweep -/

theorem free_old_loop_induct (P : vc4_bo_cache → Prop) (k : Kconfig) (now : Int)
    (hstep : ∀ c bo, P c → c.time_list.getLast? = some bo → expired k now bo = true →
      P { c with time_list := c.time_list.dropLast,
                 size_list := list_del_size_head bo c.size_list })
    (htimer : ∀ c t, P c → P { c with time_timer := t }) (fuel : Nat) :
    ∀ c, P c → P (free_old_loop k now fuel c).cache := by
  induction fuel with
  | zero => intro c hc; simpa [free_old_loop] using hc
  | succ fuel ih =>
    intro c hc
    cases hl : c.time_list.getLast? with
    | none => simpa [free_old_loop, hl] using hc
    | some bo =>
      by_cases hb : time_before (now - msecs_to_jiffies k 1000) bo.free_time = true
      · simp only [free_old_loop, hl, hb, if_true]
        exact htimer c _ hc
      · have he : expired k now bo = true := by simp [expired, hb]
        simp only [free_old_loop, hl, hb]
        exact ih _ (hstep c bo hc hl he)

theorem free_old_induct (P : vc4_bo_cache → Prop) (k : Kconfig) (now : Int)
    (hstep : ∀ c bo, P c → c.time_list.getLast? = some bo → expired k now bo = true →
      P { c with time_list := c.time_list.dropLast,
                 size_list := list_del_size_head bo c.size_list })
    (htimer : ∀ c t, P c → P { c with time_timer := t }) (c : vc4_bo_cache) (hc : P c) :
    P (vc4_bo_cache_free_old k now c).cache :=
  free_old_loop_induct P k now hstep htimer _ c hc

/-! ## The lock-step invariant -/

theorem flatten_set_perm (L : List (List vc4_bo)) (i : Nat) (bo : vc4_bo)
    (rest : List vc4_bo) (hi : i < L.length) (h : L.getD i [] = bo :: rest) :
    L.flatten.Perm (bo :: (L.set i rest).flatten) := by
  have hg : L[i] = bo :: rest := by
    rw [← List.getD_eq_getElem L [] hi]; exact h
  have hL : L = L.take i ++ (bo :: rest) :: L.drop (i + 1) := by
    conv_lhs => rw [← List.take_append_drop i L, List.drop_eq_getElem_cons hi, hg]
  have hS : L.set i rest = L.take i ++ rest :: L.drop (i + 1) := by
    rw [List.set_eq_take_append_cons_drop, if_pos hi]
  rw [hS]
  conv_lhs => rw [hL]
  simp only [List.flatten_append, List.flatten_cons, List.cons_append]
  exact List.perm_middle

theorem flatten_list_add_bucket (bo : vc4_bo) (i : Nat) (L : List (List vc4_bo))
    (hi : i < L.length) :
    (list_add_bucket bo i L).flatten.Perm (bo :: L.flatten) := by
  have h1 := flatten_set_perm (list_add_bucket bo i L) i bo (L.getD i [])
    (by simpa [length_list_add_bucket] using hi)
    (by rw [getD_list_add_bucket]; simp [hi])
  have h2 : (list_add_bucket bo i L).set i (L.getD i []) = L := by
    unfold list_add_bucket
    rw [List.set_set]
    apply List.ext_getElem?
    intro j
    rw [List.getElem?_set]
    by_cases hij : i = j
    · subst hij
      simp [hi, List.getD_eq_getElem?_getD]
    · simp [hij]
  rw [h2] at h1
  exact h1

theorem list_del_size_head_of_not_mem (bo : vc4_bo) (L : List (List vc4_bo))
    (h : bo ∉ L.flatten) : list_del_size_head bo L = L := by
  unfold list_del_size_head
  conv_rhs => rw [← List.map_id L]
  apply List.map_congr_left
  intro l hl
  have : bo ∉ l := fun hb => h (List.mem_flatten.mpr ⟨l, hl, hb⟩)
  simp [List.erase_of_not_mem this]

theorem flatten_list_del_size_head (bo : vc4_bo) :
    ∀ L : List (List vc4_bo), L.flatten.Nodup → bo ∈ L.flatten →
      L.flatten.Perm (bo :: (list_del_size_head bo L).flatten) := by
  intro L
  induction L with
  | nil => intro _ h; simp at h
  | cons l L ih =>
    intro hnd hmem
    rw [List.flatten_cons] at hnd hmem
    have hnd2 := List.nodup_append.mp hnd
    by_cases hbl : bo ∈ l
    · have hnot : bo ∉ L.flatten := fun hb => hnd2.2.2 hbl hb
      have htail : list_del_size_head bo L = L := list_del_size_head_of_not_mem bo L hnot
      have : list_del_size_head bo (l :: L) = l.erase bo :: L := by
        simp only [list_del_size_head, List.map_cons] at htail ⊢
        rw [htail]
      rw [this, List.flatten_cons, List.flatten_cons]
      exact (List.perm_cons_erase hbl).append_right _
    · have hin : bo ∈ L.flatten := by
        rcases List.mem_append.mp hmem with h | h
        · exact absurd h hbl
        · exact h
      have ih1 := ih hnd2.2.1 hin
      have : list_del_size_head bo (l :: L) = l :: list_del_size_head bo L := by
        simp [list_del_size_head, List.erase_of_not_mem hbl]
      rw [this, List.flatten_cons, List.flatten_cons]
      exact (ih1.append_left l).trans List.perm_middle

theorem lockstep_flatten_nodup {c : vc4_bo_cache} (h : lockstep c) : c.size_list.flatten.Nodup :=
  (h.2.nodup_iff).mpr (List.Nodup.of_map _ h.1)

theorem lockstep_init : lockstep vc4_bo_cache_init := by
  simp [lockstep, vc4_bo_cache_init]

theorem lockstep_timer {c : vc4_bo_cache} (t : Option Int) (h : lockstep c) :
    lockstep { c with time_timer := t } := h

theorem lockstep_sweep_step (c : vc4_bo_cache) (bo : vc4_bo) (h : lockstep c)
    (hl : c.time_list.getLast? = some bo) :
    lockstep { c with time_list := c.time_list.dropLast,
                      size_list := list_del_size_head bo c.size_list } := by
  have happ : c.time_list.dropLast ++ [bo] = c.time_list :=
    List.dropLast_append_getLast? bo (by simp [hl])
  have hmem : bo ∈ c.time_list := by rw [← happ]; simp
  constructor
  · exact List.Nodup.sublist ((List.dropLast_sublist _).map _) h.1
  · have h1 := flatten_list_del_size_head bo c.size_list (lockstep_flatten_nodup h)
      (h.2.mem_iff.mpr hmem)
    have h2 : (bo :: (list_del_size_head bo c.size_list).flatten).Perm
        (bo :: c.time_list.dropLast) := by
      refine h1.symm.trans (h.2.trans ?_)
      conv_lhs => rw [← happ]
      exact List.perm_append_singleton _ _
    exact h2.cons_inv

theorem lockstep_free_old (k : Kconfig) (now : Int) (c : vc4_bo_cache) (h : lockstep c) :
    lockstep (vc4_bo_cache_free_old k now c).cache :=
  free_old_induct lockstep k now
    (fun c bo hc hl _ => lockstep_sweep_step c bo hc hl)
    (fun _ t hc => lockstep_timer t hc) c h

/-! ## Facts about the bucket lookup, acquire and release -/

theorem page_index_succ_lt {k : Kconfig} {size : Nat} (h : page_count_ok k size) :
    bo_page_index k size + 1 < 2 ^ 32 := by
  unfold page_count_ok at h
  unfold bo_page_index
  omega

theorem page_index_lt_new_size {k : Kconfig} {size : Nat} (n : Nat)
    (h : page_count_ok k size) : bo_page_index k size < new_size n (bo_page_index k size) := by
  have h1 := page_index_succ_lt h
  unfold new_size
  rw [Nat.mod_eq_of_lt h1]
  omega

theorem page_count_ok_of_gem_size_ok {k : Kconfig} {size : Nat} (h : gem_size_ok k size) :
    page_count_ok k size := by
  obtain ⟨hp, hle, hlt⟩ := h
  have h1 : 1 ≤ size / k.PAGE_SIZE := (Nat.one_le_div_iff hp).mpr hle
  unfold page_count_ok
  omega

/-- Every size of at least one page that is a value of a `size_t` of 32 bits is in
the range `gem_size_ok`. -/
theorem gem_size_ok_of_lt {k : Kconfig} {size : Nat} (hp : 0 < k.PAGE_SIZE)
    (hle : k.PAGE_SIZE ≤ size) (hlt : size < 2 ^ 32) : gem_size_ok k size :=
  ⟨hp, hle, Nat.lt_of_le_of_lt (Nat.div_le_self _ _) hlt⟩

/-- For a size in the range `gem_size_ok` the key is the page count less one, with
no wrap-around. -/
theorem page_index_of_gem_size_ok {k : Kconfig} {size : Nat} (h : gem_size_ok k size) :
    bo_page_index k size + 1 = size / k.PAGE_SIZE := by
  obtain ⟨hp, hle, hlt⟩ := h
  have h1 : 1 ≤ size / k.PAGE_SIZE := (Nat.one_le_div_iff hp).mpr hle
  unfold bo_page_index
  omega

theorem reachable_mono (k : Kconfig) (G G1 : vc4_bo_cache → vc4_bo → Prop)
    (hG : ∀ c bo, G c bo → G1 c bo) (c0 c : vc4_bo_cache) (h : Reachable k G c0 c) :
    Reachable k G1 c0 c := by
  induction h with
  | start => exact Reachable.start
  | acquire cma size _ ih => exact Reachable.acquire cma size ih
  | release ok now bo _ hg ih => exact Reachable.release ok now bo ih (hG _ _ hg)
  | sweep now _ ih => exact Reachable.sweep now ih

theorem lookup_null_iff (k : Kconfig) (kmalloc_ok : Bool) (c : vc4_bo_cache) (size : Nat) :
    vc4_get_cache_list_for_size k kmalloc_ok c size = none ↔
      (c.size_list_size ≤ bo_page_index k size ∧ kmalloc_ok = false) := by
  unfold vc4_get_cache_list_for_size
  by_cases h : c.size_list_size ≤ bo_page_index k size
  · cases kmalloc_ok <;> simp [h]
  · simp [h]

theorem lookup_spec (k : Kconfig) (kmalloc_ok : Bool) (c c1 : vc4_bo_cache) (size i : Nat)
    (hok : page_count_ok k size)
    (h : vc4_get_cache_list_for_size k kmalloc_ok c size = some (i, c1)) :
    i = bo_page_index k size ∧ i < c1.size_list.length ∧
      c1.time_list = c.time_list ∧ c1.time_timer = c.time_timer ∧
      (∀ j, c1.size_list.getD j [] = c.size_list.getD j []) ∧
      c1.size_list.flatten = c.size_list.flatten ∧
      c.size_list.length ≤ c1.size_list.length := by
  unfold vc4_get_cache_list_for_size at h
  by_cases hle : c.size_list_size ≤ bo_page_index k size
  · cases kmalloc_ok with
    | false => simp [hle] at h
    | true =>
      simp only [hle, if_true, Option.some.injEq, Prod.mk.injEq] at h
      obtain ⟨hi, hc⟩ := h
      subst hi hc
      have hlt := page_index_lt_new_size c.size_list_size hok
      have hn : c.size_list.length ≤ new_size c.size_list_size (bo_page_index k size) := by
        unfold vc4_bo_cache.size_list_size at hle hlt
        unfold vc4_bo_cache.size_list_size
        omega
      refine ⟨rfl, ?_, rfl, rfl, ?_, ?_, ?_⟩
      · simp only [vc4_bo_cache.size_list_size, length_grow] at hlt ⊢
        exact hlt
      · intro j
        exact getD_grow _ _ _ hn
      · simp only [vc4_bo_cache.size_list_size] at hn ⊢
        rw [List.take_of_length_le hn, List.flatten_append, List.flatten_replicate_nil,
          List.append_nil]
      · simp only [vc4_bo_cache.size_list_size, length_grow]
        exact hn
  · simp only [hle, if_false, Option.some.injEq, Prod.mk.injEq] at h
    obtain ⟨hi, hc⟩ := h
    subst hi hc
    refine ⟨rfl, ?_, rfl, rfl, fun _ => rfl, rfl, Nat.le_refl _⟩
    unfold vc4_bo_cache.size_list_size at hle
    omega

theorem create_hit (k : Kconfig) (cma : Nat → Option vc4_bo) (c : vc4_bo_cache) (size : Nat)
    (bo : vc4_bo) (rest : List vc4_bo) (hi : bo_page_index k size < c.size_list_size)
    (hb : c.size_list.getD (bo_page_index k size) [] = bo :: rest) :
    vc4_bo_create k cma c size =
      ⟨some { bo with refcount := 1 },
       { c with size_list := c.size_list.set (bo_page_index k size) rest,
                time_list := c.time_list.erase bo }, []⟩ := by
  unfold vc4_bo_create
  simp only [gt_iff_lt, hi, if_true, hb]

theorem create_miss (k : Kconfig) (cma : Nat → Option vc4_bo) (c : vc4_bo_cache) (size : Nat)
    (h : c.size_list_size ≤ bo_page_index k size ∨
      c.size_list.getD (bo_page_index k size) [] = []) :
    vc4_bo_create k cma c size = ⟨cma size, c, [Call.drm_gem_cma_create size]⟩ := by
  unfold vc4_bo_create
  by_cases hi : bo_page_index k size < c.size_list_size
  · rcases h with h | h
    · omega
    · simp only [gt_iff_lt, hi, if_true, h]
      cases cma size <;> rfl
  · simp only [gt_iff_lt, hi, if_false]
    cases cma size <;> rfl

theorem create_cases (k : Kconfig) (cma : Nat → Option vc4_bo) (c : vc4_bo_cache)
    (size : Nat) :
    (∃ bo rest, bo_page_index k size < c.size_list_size ∧
        c.size_list.getD (bo_page_index k size) [] = bo :: rest ∧
        vc4_bo_create k cma c size =
          ⟨some { bo with refcount := 1 },
           { c with size_list := c.size_list.set (bo_page_index k size) rest,
                    time_list := c.time_list.erase bo }, []⟩) ∨
    ((c.size_list_size ≤ bo_page_index k size ∨
        c.size_list.getD (bo_page_index k size) [] = []) ∧
      vc4_bo_create k cma c size = ⟨cma size, c, [Call.drm_gem_cma_create size]⟩) := by
  by_cases hi : bo_page_index k size < c.size_list_size
  · by_cases hb : c.size_list.getD (bo_page_index k size) [] = []
    · exact Or.inr ⟨Or.inr hb, create_miss k cma c size (Or.inr hb)⟩
    · obtain ⟨bo, rest, hbr⟩ := List.exists_cons_of_ne_nil hb
      exact Or.inl ⟨bo, rest, hi, hbr, create_hit k cma c size bo rest hi hbr⟩
  · exact Or.inr ⟨Or.inl (by omega), create_miss k cma c size (Or.inl (by omega))⟩

theorem free_object_bypass (k : Kconfig) (kmalloc_ok : Bool) (now : Int) (c : vc4_bo_cache)
    (bo : vc4_bo) (h : bo.import_attach = true ∨ bo.name ≠ 0) :
    vc4_free_object k kmalloc_ok now c bo = ⟨c, [Call.drm_gem_cma_free_object bo]⟩ := by
  unfold vc4_free_object
  by_cases h1 : bo.import_attach = true
  · simp [h1]
  · rcases h with h | h
    · exact absurd h h1
    · simp [h1, h]

theorem free_object_null (k : Kconfig) (kmalloc_ok : Bool) (now : Int) (c : vc4_bo_cache)
    (bo : vc4_bo) (h : vc4_get_cache_list_for_size k kmalloc_ok c bo.size = none) :
    vc4_free_object k kmalloc_ok now c bo = ⟨c, [Call.drm_gem_cma_free_object bo]⟩ := by
  unfold vc4_free_object
  rw [h]
  split
  · rfl
  · split <;> rfl

theorem free_object_cached (k : Kconfig) (kmalloc_ok : Bool) (now : Int) (c c1 : vc4_bo_cache)
    (bo : vc4_bo) (i : Nat) (h1 : bo.import_attach = false) (h2 : bo.name = 0)
    (h : vc4_get_cache_list_for_size k kmalloc_ok c bo.size = some (i, c1)) :
    vc4_free_object k kmalloc_ok now c bo =
      vc4_bo_cache_free_old k now
        { c1 with size_list := list_add_bucket { bo with free_time := now } i c1.size_list,
                  time_list := { bo with free_time := now } :: c1.time_list } := by
  unfold vc4_free_object
  simp [h1, h2, h]

/-- The three ways in which a release ends. -/
theorem free_object_cases (k : Kconfig) (kmalloc_ok : Bool) (now : Int) (c : vc4_bo_cache)
    (bo : vc4_bo) :
    vc4_free_object k kmalloc_ok now c bo = ⟨c, [Call.drm_gem_cma_free_object bo]⟩ ∨
    ∃ i c1, bo.import_attach = false ∧ bo.name = 0 ∧
      vc4_get_cache_list_for_size k kmalloc_ok c bo.size = some (i, c1) ∧
      vc4_free_object k kmalloc_ok now c bo =
        vc4_bo_cache_free_old k now
          { c1 with size_list := list_add_bucket { bo with free_time := now } i c1.size_list,
                    time_list := { bo with free_time := now } :: c1.time_list } := by
  by_cases h1 : bo.import_attach = true
  · exact Or.inl (free_object_bypass k kmalloc_ok now c bo (Or.inl h1))
  · by_cases h2 : bo.name = 0
    · cases h : vc4_get_cache_list_for_size k kmalloc_ok c bo.size with
      | none => exact Or.inl (free_object_null k kmalloc_ok now c bo h)
      | some p =>
        obtain ⟨i, c1⟩ := p
        have h1f : bo.import_attach = false := by simpa using h1
        exact Or.inr ⟨i, c1, h1f, h2, rfl, free_object_cached k kmalloc_ok now c c1 bo i h1f h2 h⟩
    · exact Or.inl (free_object_bypass k kmalloc_ok now c bo (Or.inr h2))

/-! ## Membership parity (C1) -/

theorem lockstep_create (k : Kconfig) (cma : Nat → Option vc4_bo) (c : vc4_bo_cache)
    (size : Nat) (h : lockstep c) : lockstep (vc4_bo_create k cma c size).cache := by
  rcases create_cases k cma c size with ⟨bo, rest, hi, hb, heq⟩ | ⟨_, heq⟩
  · rw [heq]
    have h1 := flatten_set_perm c.size_list _ bo rest hi hb
    have hmem : bo ∈ c.time_list :=
      h.2.mem_iff.mp (h1.symm.subset (List.mem_cons_self _ _))
    constructor
    · exact List.Nodup.sublist ((List.erase_sublist bo c.time_list).map _) h.1
    · exact (h1.symm.trans (h.2.trans (List.perm_cons_erase hmem))).cons_inv
  · rw [heq]; exact h

theorem lockstep_release (k : Kconfig) (kmalloc_ok : Bool) (now : Int) (c : vc4_bo_cache)
    (bo : vc4_bo) (h : lockstep c) (hlive : live c bo) (hok : page_count_ok k bo.size) :
    lockstep (vc4_free_object k kmalloc_ok now c bo).cache := by
  rcases free_object_cases k kmalloc_ok now c bo with heq | ⟨i, c1, _, _, hlook, heq⟩
  · rw [heq]; exact h
  · rw [heq]
    obtain ⟨_, hi, htl, _, _, hfl, _⟩ := lookup_spec k kmalloc_ok c c1 bo.size i hok hlook
    apply lockstep_free_old
    constructor
    · simp only [List.map_cons, List.nodup_cons, htl]
      refine ⟨?_, h.1⟩
      intro hm
      obtain ⟨x, hx, hxid⟩ := List.mem_map.mp hm
      exact hlive.1 x hx hxid
    · refine (flatten_list_add_bucket _ i c1.size_list hi).trans ?_
      rw [hfl, htl]
      exact h.2.cons _

theorem lockstep_reachable (k : Kconfig) (c : vc4_bo_cache)
    (h : Reachable k (fun c bo => live c bo ∧ page_count_ok k bo.size) vc4_bo_cache_init c) :
    lockstep c := by
  induction h with
  | start => exact lockstep_init
  | acquire cma size _ ih => exact lockstep_create k cma _ size ih
  | release ok now bo _ hg ih => exact lockstep_release k ok now _ bo ih hg.1 hg.2
  | sweep now _ ih => exact lockstep_free_old k now _ ih

theorem membership_parity_of_lockstep {c : vc4_bo_cache} (h : lockstep c) :
    membership_parity c := by
  constructor
  · intro b
    rw [← List.mem_flatten]
    exact h.2.mem_iff
  · intro b hb
    have hb2 : b ∈ c.size_list.flatten := h.2.mem_iff.mpr hb
    have hnd2 : (c.size_list.flatten.map vc4_bo.id).Nodup :=
      ((h.2.map vc4_bo.id).nodup_iff).mpr h.1
    exact ⟨List.count_eq_one_of_mem h.1 (List.mem_map_of_mem _ hb),
      List.count_eq_one_of_mem hnd2 (List.mem_map_of_mem _ hb2)⟩

/-- C1. In every state reachable from the initialised empty cache by any sequence
of acquires (`vc4_bo_create`), sweeps (`vc4_bo_cache_free_old`) and releases
(`vc4_free_object`) of buffers that are live at the time of the call, a buffer is
in some bucket exactly when it is in the recency queue, and every cached object
occurs once in the queue and once in the buckets taken together. Growth of the
bucket array is part of the release step. The released buffers are GEM objects:
their sizes are in the range `gem_size_ok`. -/
theorem membership_parity_reachable (k : Kconfig) (c : vc4_bo_cache)
    (h : Reachable k (fun c bo => live c bo ∧ gem_size_ok k bo.size) vc4_bo_cache_init c) :
    membership_parity c :=
  membership_parity_of_lockstep (lockstep_reachable k c
    (reachable_mono k _ _ (fun _ _ hg => ⟨hg.1, page_count_ok_of_gem_size_ok hg.2⟩) _ _ h))

/-- Witness for C1: buffer A (one page) and buffer B (two pages, which grows the
bucket array) are released, and A is acquired again. -/
theorem membership_parity_reachable_witness :
    membership_parity
      (vc4_bo_create k32 (fun _ => none)
        (vc4_free_object k32 true 5
          (vc4_free_object k32 true 0 vc4_bo_cache_init boA).cache boB).cache 4096).cache :=
  membership_parity_reachable k32 _
    (Reachable.acquire _ _
      (Reachable.release true 5 boB
        (Reachable.release true 0 boA Reachable.start (by decide))
        (by decide)))

/-! ## Exact-size reuse (C2) -/

theorem page_index_of_multiple {k : Kconfig} {size : Nat} (h : page_multiple k size)
    (hfit : size / k.PAGE_SIZE < 2 ^ 32) :
    page_count_ok k size ∧ (bo_page_index k size + 1) * k.PAGE_SIZE = size := by
  obtain ⟨hpos, hmod⟩ := h
  have hq : k.PAGE_SIZE * (size / k.PAGE_SIZE) = size := Nat.mul_div_cancel' (Nat.dvd_of_mod_eq_zero hmod)
  have hq1 : 1 ≤ size / k.PAGE_SIZE := by
    rcases Nat.eq_zero_or_pos (size / k.PAGE_SIZE) with h0 | h0
    · rw [h0] at hq; omega
    · exact h0
  have hidx : bo_page_index k size + 1 = size / k.PAGE_SIZE := by
    unfold bo_page_index; omega
  refine ⟨?_, ?_⟩
  · unfold page_count_ok; omega
  · rw [hidx, Nat.mul_comm]; exact hq

theorem bucket_sizes_create (k : Kconfig) (cma : Nat → Option vc4_bo) (c : vc4_bo_cache)
    (size : Nat) (h : bucket_sizes k c) : bucket_sizes k (vc4_bo_create k cma c size).cache := by
  rcases create_cases k cma c size with ⟨bo, rest, hi, hb, heq⟩ | ⟨_, heq⟩
  · rw [heq]
    intro j b hbj
    simp only [getD_set_bucket] at hbj
    split at hbj
    · next hj =>
      apply h j b
      rw [← hj.1, hb]
      exact List.mem_cons_of_mem _ hbj
    · exact h j b hbj
  · rw [heq]; exact h

theorem bucket_sizes_free_old (k : Kconfig) (now : Int) (c : vc4_bo_cache)
    (h : bucket_sizes k c) : bucket_sizes k (vc4_bo_cache_free_old k now c).cache := by
  intro j b hbj
  rw [free_old_bucket] at hbj
  exact h j b ((List.diff_sublist _ _).subset hbj)

theorem bucket_sizes_release (k : Kconfig) (kmalloc_ok : Bool) (now : Int) (c : vc4_bo_cache)
    (bo : vc4_bo) (h : bucket_sizes k c) (hm : page_multiple k bo.size)
    (hfit : bo.size / k.PAGE_SIZE < 2 ^ 32) :
    bucket_sizes k (vc4_free_object k kmalloc_ok now c bo).cache := by
  rcases free_object_cases k kmalloc_ok now c bo with heq | ⟨i, c1, _, _, hlook, heq⟩
  · rw [heq]; exact h
  · rw [heq]
    obtain ⟨hok, hsz⟩ := page_index_of_multiple hm hfit
    obtain ⟨hi, _, _, _, hget, _, _⟩ := lookup_spec k kmalloc_ok c c1 bo.size i hok hlook
    apply bucket_sizes_free_old
    intro j b hbj
    simp only [getD_list_add_bucket] at hbj
    split at hbj
    · next hj =>
      rcases List.mem_cons.mp hbj with hb | hb
      · rw [hb, ← hj.1, hi]
        exact hsz.symm
      · rw [hget] at hb
        rw [← hj.1]
        exact h i b hb
    · rw [hget] at hbj
      exact h j b hbj

theorem bucket_sizes_reachable (k : Kconfig) (c : vc4_bo_cache)
    (h : Reachable k (fun _ bo => page_multiple k bo.size ∧ bo.size / k.PAGE_SIZE < 2 ^ 32)
      vc4_bo_cache_init c) : bucket_sizes k c := by
  induction h with
  | start =>
    intro i b hb
    simp [vc4_bo_cache_init] at hb
  | acquire cma size _ ih => exact bucket_sizes_create k cma _ size ih
  | release ok now bo _ hg ih => exact bucket_sizes_release k ok now _ bo ih hg.1 hg.2
  | sweep now _ ih => exact bucket_sizes_free_old k now _ ih

/-- C2. After any sequence of acquires, sweeps and releases in which every
released buffer has a size that is a positive whole multiple of `PAGE_SIZE`, every
buffer held in bucket `i` has size `(i + 1) * PAGE_SIZE` (growth of the bucket
array included), and for every requested size that is a whole multiple of
`PAGE_SIZE` of at least one page, a buffer that `vc4_bo_create` takes from the
cache, that is, returns without a call of the external allocator, has exactly the
requested size. The sizes are sizes of GEM objects, in the range `gem_size_ok`. -/
theorem exact_size_reuse (k : Kconfig) (c : vc4_bo_cache)
    (cma : Nat → Option vc4_bo) (size : Nat)
    (h : Reachable k (fun _ bo => page_multiple k bo.size ∧ gem_size_ok k bo.size)
      vc4_bo_cache_init c)
    (hm : page_multiple k size) (hfit : gem_size_ok k size) :
    bucket_sizes k c ∧
      ∀ bo, (vc4_bo_create k cma c size).calls = [] →
        (vc4_bo_create k cma c size).bo = some bo → bo.size = size := by
  have hb := bucket_sizes_reachable k c
    (reachable_mono k _ _ (fun _ _ hg => ⟨hg.1, hg.2.2.2⟩) _ _ h)
  refine ⟨hb, ?_⟩
  intro bo hcalls hbo
  rcases create_cases k cma c size with ⟨b, rest, _, hbk, heq⟩ | ⟨_, heq⟩
  · rw [heq] at hbo
    simp only [Option.some.injEq] at hbo
    have hsz := hb (bo_page_index k size) b (by rw [hbk]; exact List.mem_cons_self _ _)
    rw [← hbo]
    simp only
    rw [hsz]
    exact (page_index_of_multiple hm hfit.2.2).2
  · rw [heq] at hcalls
    simp at hcalls

/-- Witness for C2: after buffer A (one page) and buffer B (two pages) are
released, a request for two pages is served from the cache with B. -/
theorem exact_size_reuse_witness :
    bucket_sizes k32
        (vc4_free_object k32 true 5
          (vc4_free_object k32 true 0 vc4_bo_cache_init boA).cache boB).cache ∧
      ∀ bo,
        (vc4_bo_create k32 (fun _ => none)
          (vc4_free_object k32 true 5
            (vc4_free_object k32 true 0 vc4_bo_cache_init boA).cache boB).cache 8192).calls = [] →
        (vc4_bo_create k32 (fun _ => none)
          (vc4_free_object k32 true 5
            (vc4_free_object k32 true 0 vc4_bo_cache_init boA).cache boB).cache 8192).bo = some bo →
        bo.size = 8192 :=
  exact_size_reuse k32 _ (fun _ => none) 8192
    (Reachable.release true 5 boB
      (Reachable.release true 0 boA Reachable.start (by decide))
      (by decide))
    (by decide) (by decide)

/-! ## Cache hit after release (C3) -/

theorem diff_cons_of_not_mem (a : vc4_bo) (l : List vc4_bo) :
    ∀ g : List vc4_bo, a ∉ g → (a :: l).diff g = a :: l.diff g := by
  intro g
  induction g generalizing l with
  | nil => intro _; simp
  | cons x g ih =>
    intro h
    have hx : x ≠ a := fun e => h (by simp [e])
    have hg : a ∉ g := fun e => h (List.mem_cons_of_mem _ e)
    rw [List.diff_cons, List.diff_cons]
    have : (a :: l).erase x = a :: l.erase x := by
      rw [List.erase_cons_tail]
      simpa using hx.symm
    rw [this]
    exact ih _ hg

/-- The state in which `b` heads the bucket `i` and is on the recency queue. -/
theorem heads_bucket_free_old (k : Kconfig) (now : Int) (c : vc4_bo_cache) (b : vc4_bo)
    (i : Nat) (hne : expired k now b = false)
    (h : (∃ rest, c.size_list.getD i [] = b :: rest) ∧ i < c.size_list_size ∧ b ∈ c.time_list) :
    (∃ rest, (vc4_bo_cache_free_old k now c).cache.size_list.getD i [] = b :: rest) ∧
      i < (vc4_bo_cache_free_old k now c).cache.size_list_size ∧
      b ∈ (vc4_bo_cache_free_old k now c).cache.time_list := by
  obtain ⟨⟨rest, hr⟩, hi, hb⟩ := h
  have hnot : b ∉ evicted k now c := by
    intro hm
    have := expired_of_mem_evicted hm
    rw [hne] at this
    exact Bool.noConfusion this
  refine ⟨⟨rest.diff (evicted k now c), ?_⟩, ?_, ?_⟩
  · rw [free_old_bucket, hr, diff_cons_of_not_mem _ _ _ hnot]
  · rw [free_old_size_list_size]; exact hi
  · rw [free_old_time_list]
    have hsplit := retained_append_evicted k now c
    rw [← hsplit] at hb
    rcases List.mem_append.mp hb with h1 | h1
    · exact h1
    · exact absurd (List.mem_reverse.mp h1) hnot

theorem heads_bucket_sweeps (k : Kconfig) (b : vc4_bo) (i : Nat) (ts : List Int) :
    ∀ c : vc4_bo_cache, (∀ t ∈ ts, expired k t b = false) →
      ((∃ rest, c.size_list.getD i [] = b :: rest) ∧ i < c.size_list_size ∧ b ∈ c.time_list) →
      (∃ rest, (sweeps k ts c).size_list.getD i [] = b :: rest) ∧
        i < (sweeps k ts c).size_list_size ∧ b ∈ (sweeps k ts c).time_list := by
  induction ts with
  | nil => intro c _ h; simpa [sweeps] using h
  | cons t ts ih =>
    intro c hts h
    have h1 := heads_bucket_free_old k t c b i (hts t (List.mem_cons_self _ _)) h
    have h2 := ih _ (fun t1 ht1 => hts t1 (List.mem_cons_of_mem _ ht1)) h1
    simpa [sweeps] using h2

theorem not_expired_of_lt (k : Kconfig) (t : Int) (b : vc4_bo)
    (h : t - b.free_time < msecs_to_jiffies k 1000) : expired k t b = false := by
  cases he : expired k t b with
  | false => rfl
  | true =>
    have := (expired_iff k t b).mp he
    omega

/-- C3. Let `b` be a buffer that is not imported and not publicly named and whose
bucket lookup succeeds, in any cache state; `b` is a GEM object, so its size is in
the range `gem_size_ok`. After `vc4_free_object b` at time `t0`, which runs its own
sweep, `b` is on the recency queue (that sweep does not evict it); after any
number of further sweeps at times `t` with `t - t0` less than the grace period it
still is, and `vc4_bo_create` for the size of `b` returns `b` itself, with its
reference count set to one, without a call of the external allocator. -/
theorem cache_hit_after_release (k : Kconfig) (kmalloc_ok : Bool) (c : vc4_bo_cache)
    (b : vc4_bo) (t0 : Int) (ts : List Int) (cma : Nat → Option vc4_bo)
    (hHZ : 0 < k.HZ) (himp : b.import_attach = false) (hname : b.name = 0)
    (hlook : vc4_get_cache_list_for_size k kmalloc_ok c b.size ≠ none)
    (hsize : gem_size_ok k b.size)
    (hts : ∀ t ∈ ts, t - t0 < msecs_to_jiffies k 1000) :
    { b with free_time := t0 } ∈ (vc4_free_object k kmalloc_ok t0 c b).cache.time_list ∧
      { b with free_time := t0 } ∈
        (sweeps k ts (vc4_free_object k kmalloc_ok t0 c b).cache).time_list ∧
      (vc4_bo_create k cma (sweeps k ts (vc4_free_object k kmalloc_ok t0 c b).cache) b.size).bo
        = some { b with free_time := t0, refcount := 1 } ∧
      (vc4_bo_create k cma (sweeps k ts (vc4_free_object k kmalloc_ok t0 c b).cache) b.size).calls
        = [] := by
  obtain ⟨⟨i, c1⟩, hl⟩ := Option.ne_none_iff_exists'.mp hlook
  obtain ⟨hi, hlt, _, _, _, _, _⟩ :=
    lookup_spec k kmalloc_ok c c1 b.size i (page_count_ok_of_gem_size_ok hsize) hl
  rw [hi] at hl hlt
  rw [free_object_cached k kmalloc_ok t0 c c1 b (bo_page_index k b.size) himp hname hl]
  have hgrace : (0 : Int) < msecs_to_jiffies k 1000 := by
    rw [msecs_to_jiffies_1000]; exact_mod_cast hHZ
  have h0 : expired k t0 { b with free_time := t0 } = false :=
    not_expired_of_lt k t0 _ (by simpa using hgrace)
  have hstart :
      (∃ rest, (list_add_bucket { b with free_time := t0 } (bo_page_index k b.size)
            c1.size_list).getD (bo_page_index k b.size) [] =
          { b with free_time := t0 } :: rest) ∧
        bo_page_index k b.size <
          (list_add_bucket { b with free_time := t0 } (bo_page_index k b.size)
            c1.size_list).length ∧
        { b with free_time := t0 } ∈ { b with free_time := t0 } :: c1.time_list := by
    refine ⟨⟨c1.size_list.getD (bo_page_index k b.size) [], ?_⟩, ?_, List.mem_cons_self _ _⟩
    · rw [getD_list_add_bucket, if_pos ⟨rfl, hlt⟩]
    · rw [length_list_add_bucket]; exact hlt
  have h1 := heads_bucket_free_old k t0
    { c1 with size_list := list_add_bucket { b with free_time := t0 } (bo_page_index k b.size)
                c1.size_list,
              time_list := { b with free_time := t0 } :: c1.time_list }
    { b with free_time := t0 } (bo_page_index k b.size) h0 hstart
  have h2 := heads_bucket_sweeps k { b with free_time := t0 } (bo_page_index k b.size) ts _
    (fun t ht => not_expired_of_lt k t _ (by simpa using hts t ht)) h1
  obtain ⟨⟨rest, hr⟩, hlen, hmem⟩ := h2
  refine ⟨h1.2.2, hmem, ?_, ?_⟩
  · rw [create_hit k cma _ b.size _ rest hlen hr]
  · rw [create_hit k cma _ b.size _ rest hlen hr]

/-- Witness for C3: buffer A (4096 bytes) is released at `t = 0`; after a sweep
at `t = 500 ms` (50 ticks) a request for 4096 bytes returns A. -/
theorem cache_hit_after_release_witness :
    { boA with free_time := 0 } ∈
        (vc4_free_object k32 true 0 vc4_bo_cache_init boA).cache.time_list ∧
      { boA with free_time := 0 } ∈
        (sweeps k32 [msecs_to_jiffies k32 500]
          (vc4_free_object k32 true 0 vc4_bo_cache_init boA).cache).time_list ∧
      (vc4_bo_create k32 (fun _ => none)
        (sweeps k32 [msecs_to_jiffies k32 500]
          (vc4_free_object k32 true 0 vc4_bo_cache_init boA).cache) boA.size).bo
        = some { boA with free_time := 0, refcount := 1 } ∧
      (vc4_bo_create k32 (fun _ => none)
        (sweeps k32 [msecs_to_jiffies k32 500]
          (vc4_free_object k32 true 0 vc4_bo_cache_init boA).cache) boA.size).calls
        = [] :=
  cache_hit_after_release k32 true vc4_bo_cache_init boA 0 [msecs_to_jiffies k32 500]
    (fun _ => none) (by decide) (by decide) (by decide) (by decide) (by decide) (by decide)

/-! ## Expiry (C4) -/

theorem dropWhile_all_false (p : vc4_bo → Bool) :
    ∀ l : List vc4_bo, l.Pairwise (fun a b => p b = true → p a = true) →
      ∀ y ∈ l.dropWhile p, p y = false := by
  intro l
  induction l with
  | nil => intro _ y hy; simp at hy
  | cons a l ih =>
    intro hp y hy
    rw [List.pairwise_cons] at hp
    by_cases ha : p a = true
    · rw [List.dropWhile_cons_of_pos ha] at hy
      exact ih hp.2 y hy
    · rw [List.dropWhile_cons_of_neg ha] at hy
      rcases List.mem_cons.mp hy with rfl | hyl
      · simpa using ha
      · cases hpy : p y with
        | false => rfl
        | true => exact absurd (hp.1 y hyl hpy) ha

theorem retained_not_expired (k : Kconfig) (now : Int) (c : vc4_bo_cache)
    (hord : time_ordered c) : ∀ b ∈ retained k now c, expired k now b = false := by
  intro b hb
  apply dropWhile_all_false (expired k now) c.time_list.reverse
  · rw [List.pairwise_reverse]
    refine List.Pairwise.imp ?_ hord
    intro x y hxy hy
    rw [expired_iff] at hy ⊢
    omega
  · exact List.mem_reverse.mp hb

theorem mem_evicted_of_expired (k : Kconfig) (now : Int) (c : vc4_bo_cache)
    (hord : time_ordered c) (b : vc4_bo) (hb : b ∈ c.time_list)
    (he : expired k now b = true) : b ∈ evicted k now c ∧ b ∉ retained k now c := by
  have hnot : b ∉ retained k now c := by
    intro hm
    rw [retained_not_expired k now c hord b hm] at he
    exact Bool.noConfusion he
  rw [← retained_append_evicted k now c] at hb
  rcases List.mem_append.mp hb with h | h
  · exact absurd h hnot
  · exact ⟨List.mem_reverse.mp h, hnot⟩

theorem evicted_nodup (k : Kconfig) (now : Int) (c : vc4_bo_cache)
    (h : c.time_list.Nodup) : (evicted k now c).Nodup := by
  have hsub : (evicted k now c).Sublist c.time_list.reverse :=
    List.takeWhile_sublist _
  exact List.Nodup.sublist hsub (List.nodup_reverse.mpr h)

theorem free_old_calls_count (k : Kconfig) (now : Int) (c : vc4_bo_cache) (b : vc4_bo) :
    (vc4_bo_cache_free_old k now c).calls.count (Call.drm_gem_cma_free_object b) =
      (evicted k now c).count b := by
  have hinj : Function.Injective Call.drm_gem_cma_free_object := by
    intro x y hxy; injection hxy
  rw [free_old_eq_summary]
  unfold free_old_summary
  split
  · simp only [List.count_map_of_injective _ _ hinj]
  · simp only [List.count_append, List.count_map_of_injective _ _ hinj]
    simp [List.count_cons]

theorem retained_sublist (k : Kconfig) (now : Int) (c : vc4_bo_cache) :
    (retained k now c).Sublist c.time_list := by
  have h := retained_append_evicted k now c
  have : (retained k now c).Sublist (retained k now c ++ (evicted k now c).reverse) :=
    List.sublist_append_left _ _
  rwa [h] at this

theorem eq_of_id_eq {l : List vc4_bo} (h : (l.map vc4_bo.id).Nodup) {x y : vc4_bo}
    (hx : x ∈ l) (hy : y ∈ l) (hid : x.id = y.id) : x = y :=
  List.inj_on_of_nodup_map h hx hy hid

theorem mem_time_list_of_mem_bucket {c : vc4_bo_cache} (h : lockstep c) {i : Nat} {b : vc4_bo}
    (hb : b ∈ c.size_list.getD i []) : b ∈ c.time_list := by
  apply h.2.mem_iff.mp
  by_cases hi : i < c.size_list.length
  · rw [List.getD_eq_getElem _ _ hi] at hb
    exact List.mem_flatten.mpr ⟨_, List.getElem_mem hi, hb⟩
  · rw [List.getD_eq_default _ _ (by omega)] at hb
    simp at hb

/-- C4. Let the recency queue be ordered by release time, in a state in which
buckets and queue are in lock step, and let a sweep run at time `now`.
Afterwards every buffer that is still cached, in the queue or in a bucket, has an
age `now - free_time` below the grace period. Every cached buffer whose age had
reached the grace period is gone from the queue and from every bucket and has been
passed exactly once to `drm_gem_cma_free_object`; a later `vc4_bo_create` that is
served from the cache returns another object. If all buffers in the bucket of a
size had reached the grace period, a `vc4_bo_create` of that size after the sweep
calls the external allocator. -/
theorem expiry (k : Kconfig) (now : Int) (c : vc4_bo_cache)
    (hord : time_ordered c) (hinv : lockstep c) :
    (∀ b ∈ (vc4_bo_cache_free_old k now c).cache.time_list,
        now - b.free_time < msecs_to_jiffies k 1000) ∧
    (∀ l ∈ (vc4_bo_cache_free_old k now c).cache.size_list, ∀ b ∈ l,
        now - b.free_time < msecs_to_jiffies k 1000) ∧
    (∀ b ∈ c.time_list, msecs_to_jiffies k 1000 ≤ now - b.free_time →
        b ∉ (vc4_bo_cache_free_old k now c).cache.time_list ∧
        (∀ l ∈ (vc4_bo_cache_free_old k now c).cache.size_list, b ∉ l) ∧
        (vc4_bo_cache_free_old k now c).calls.count (Call.drm_gem_cma_free_object b) = 1 ∧
        ∀ (cma : Nat → Option vc4_bo) (size : Nat) (x : vc4_bo),
          (vc4_bo_create k cma (vc4_bo_cache_free_old k now c).cache size).calls = [] →
          (vc4_bo_create k cma (vc4_bo_cache_free_old k now c).cache size).bo = some x →
          x.id ≠ b.id) ∧
    (∀ (cma : Nat → Option vc4_bo) (size : Nat),
        (∀ y ∈ c.size_list.getD (bo_page_index k size) [],
          msecs_to_jiffies k 1000 ≤ now - y.free_time) →
        (vc4_bo_create k cma (vc4_bo_cache_free_old k now c).cache size).calls =
          [Call.drm_gem_cma_create size] ∧
        (vc4_bo_create k cma (vc4_bo_cache_free_old k now c).cache size).bo = cma size) := by
  have hinv2 := lockstep_free_old k now c hinv
  have hyoung : ∀ b ∈ (vc4_bo_cache_free_old k now c).cache.time_list,
      now - b.free_time < msecs_to_jiffies k 1000 := by
    intro b hb
    rw [free_old_time_list] at hb
    have hne := retained_not_expired k now c hord b hb
    by_contra hcon
    have : expired k now b = true := (expired_iff k now b).mpr (by omega)
    rw [hne] at this
    exact Bool.noConfusion this
  have hbuckets : ∀ l ∈ (vc4_bo_cache_free_old k now c).cache.size_list, ∀ b ∈ l,
      now - b.free_time < msecs_to_jiffies k 1000 := by
    intro l hl b hb
    exact hyoung b (hinv2.2.mem_iff.mp (List.mem_flatten.mpr ⟨l, hl, hb⟩))
  refine ⟨hyoung, hbuckets, ?_, ?_⟩
  · intro b hb hage
    have hnotq : b ∉ (vc4_bo_cache_free_old k now c).cache.time_list := by
      intro hm
      have := hyoung b hm
      omega
    have hev := mem_evicted_of_expired k now c hord b hb ((expired_iff k now b).mpr hage)
    refine ⟨hnotq, ?_, ?_, ?_⟩
    · intro l hl hm
      have := hbuckets l hl b hm
      omega
    · rw [free_old_calls_count]
      exact List.count_eq_one_of_mem
        (evicted_nodup k now c (List.Nodup.of_map _ hinv.1)) hev.1
    · intro cma size x hcalls hbo hid
      rcases create_cases k cma (vc4_bo_cache_free_old k now c).cache size with
        ⟨y, rest, _, hy, heq⟩ | ⟨_, heq⟩
      · rw [heq] at hbo
        simp only [Option.some.injEq] at hbo
        have hyq : y ∈ (vc4_bo_cache_free_old k now c).cache.time_list :=
          mem_time_list_of_mem_bucket hinv2 (by rw [hy]; exact List.mem_cons_self _ _)
        have hyc : y ∈ c.time_list := by
          rw [free_old_time_list] at hyq
          exact (retained_sublist k now c).subset hyq
        have hyid : y.id = b.id := by rw [← hid, ← hbo]
        have : y = b := eq_of_id_eq hinv.1 hyc hb hyid
        rw [this] at hyq
        exact hnotq hyq
      · rw [heq] at hcalls
        simp at hcalls
  · intro cma size hall
    have hempty : (vc4_bo_cache_free_old k now c).cache.size_list.getD
        (bo_page_index k size) [] = [] := by
      apply List.eq_nil_iff_forall_not_mem.mpr
      intro y hy
      have hyq := mem_time_list_of_mem_bucket hinv2 hy
      have h1 := hyoung y hyq
      rw [free_old_bucket] at hy
      have h2 := hall y ((List.diff_sublist _ _).subset hy)
      omega
    rw [create_miss k cma _ size (Or.inr hempty)]
    exact ⟨rfl, rfl⟩

/-- Witness for C4: buffer A (4096 bytes) is released at `t = 0`; the sweep at
`t = 1500 ms` (150 ticks) removes it and frees it once, and a request for 4096
bytes then calls the external allocator. -/
theorem expiry_witness :
    { boA with free_time := 0 } ∉
        (vc4_bo_cache_free_old k32 150
          (vc4_free_object k32 true 0 vc4_bo_cache_init boA).cache).cache.time_list ∧
      (vc4_bo_cache_free_old k32 150
          (vc4_free_object k32 true 0 vc4_bo_cache_init boA).cache).calls.count
        (Call.drm_gem_cma_free_object { boA with free_time := 0 }) = 1 ∧
      (vc4_bo_create k32 (fun _ => none)
        (vc4_bo_cache_free_old k32 150
          (vc4_free_object k32 true 0 vc4_bo_cache_init boA).cache).cache 4096).calls =
        [Call.drm_gem_cma_create 4096] :=
  have h := expiry k32 150 (vc4_free_object k32 true 0 vc4_bo_cache_init boA).cache
    (by decide) (by decide)
  have h3 := h.2.2.1 { boA with free_time := 0 } (by decide) (by decide)
  ⟨h3.1, h3.2.2.1, (h.2.2.2 (fun _ => none) 4096 (by decide)).1⟩

/-! ## No early eviction (C5) -/

theorem mem_evicted_of_free_call (k : Kconfig) (now : Int) (c : vc4_bo_cache) (b : vc4_bo)
    (h : Call.drm_gem_cma_free_object b ∈ (vc4_bo_cache_free_old k now c).calls) :
    b ∈ evicted k now c := by
  rw [free_old_eq_summary] at h
  unfold free_old_summary at h
  split at h
  · simpa using h
  · simpa using h

theorem retained_prefix (k : Kconfig) (now : Int) (c : vc4_bo_cache) :
    retained k now c <+: c.time_list :=
  ⟨(evicted k now c).reverse, retained_append_evicted k now c⟩

/-- C5. For every cache state and every time `now`: every buffer that the sweep
passes to the external release has an age `now - free_time` of at least the grace
period; every buffer whose age is less than the grace period stays in the recency
queue and in its bucket; the queue after the sweep is an initial segment of the
queue before it, every bucket after the sweep is a sublist of the bucket before
it, so the retained entries keep their relative order, and the number of buckets
is unchanged. -/
theorem no_early_eviction (k : Kconfig) (now : Int) (c : vc4_bo_cache) :
    (∀ b, Call.drm_gem_cma_free_object b ∈ (vc4_bo_cache_free_old k now c).calls →
        b ∈ c.time_list ∧ msecs_to_jiffies k 1000 ≤ now - b.free_time) ∧
    (∀ b ∈ c.time_list, now - b.free_time < msecs_to_jiffies k 1000 →
        b ∈ (vc4_bo_cache_free_old k now c).cache.time_list) ∧
    (∀ i, ∀ b ∈ c.size_list.getD i [], now - b.free_time < msecs_to_jiffies k 1000 →
        b ∈ (vc4_bo_cache_free_old k now c).cache.size_list.getD i []) ∧
    (vc4_bo_cache_free_old k now c).cache.time_list <+: c.time_list ∧
    (∀ i, ((vc4_bo_cache_free_old k now c).cache.size_list.getD i []).Sublist
        (c.size_list.getD i [])) ∧
    (vc4_bo_cache_free_old k now c).cache.size_list_size = c.size_list_size := by
  have hyoung : ∀ b, now - b.free_time < msecs_to_jiffies k 1000 → b ∉ evicted k now c := by
    intro b hb hm
    have := (expired_iff k now b).mp (expired_of_mem_evicted hm)
    omega
  refine ⟨?_, ?_, ?_, ?_, ?_, free_old_size_list_size k now c⟩
  · intro b hb
    have hm := mem_evicted_of_free_call k now c b hb
    refine ⟨?_, (expired_iff k now b).mp (expired_of_mem_evicted hm)⟩
    rw [← retained_append_evicted k now c]
    exact List.mem_append_right _ (List.mem_reverse.mpr hm)
  · intro b hb hage
    rw [free_old_time_list]
    rw [← retained_append_evicted k now c] at hb
    rcases List.mem_append.mp hb with h | h
    · exact h
    · exact absurd (List.mem_reverse.mp h) (hyoung b hage)
  · intro i b hb hage
    rw [free_old_bucket]
    exact List.mem_diff_of_mem hb (hyoung b hage)
  · rw [free_old_time_list]
    exact retained_prefix k now c
  · intro i
    rw [free_old_bucket]
    exact List.diff_sublist _ _

/-! ## Releases that bypass the cache (C6) -/

theorem getD_grow_subset (L : List (List vc4_bo)) (n j : Nat) (x : vc4_bo)
    (h : x ∈ (L.take n ++ List.replicate (n - L.length) []).getD j []) : x ∈ L.getD j [] := by
  simp only [List.getD_eq_getElem?_getD, List.getElem?_append, List.getElem?_replicate,
    List.getElem?_take, List.length_take] at h ⊢
  split at h
  · next h1 =>
    rw [if_pos (by omega)] at h
    exact h
  · split at h <;> simp at h

theorem lookup_frame (k : Kconfig) (kmalloc_ok : Bool) (c c1 : vc4_bo_cache) (size i : Nat)
    (h : vc4_get_cache_list_for_size k kmalloc_ok c size = some (i, c1)) :
    i = bo_page_index k size ∧ c1.time_list = c.time_list ∧ c1.time_timer = c.time_timer ∧
      ∀ j, ∀ x ∈ c1.size_list.getD j [], x ∈ c.size_list.getD j [] := by
  unfold vc4_get_cache_list_for_size at h
  by_cases hle : c.size_list_size ≤ bo_page_index k size
  · cases kmalloc_ok with
    | false => simp [hle] at h
    | true =>
      simp only [hle, if_true, Option.some.injEq, Prod.mk.injEq] at h
      obtain ⟨hi, hc⟩ := h
      rw [← hi, ← hc]
      refine ⟨rfl, rfl, rfl, ?_⟩
      intro j x hx
      exact getD_grow_subset _ _ _ _ hx
  · simp only [hle, if_false, Option.some.injEq, Prod.mk.injEq] at h
    obtain ⟨hi, hc⟩ := h
    rw [← hi, ← hc]
    exact ⟨rfl, rfl, rfl, fun _ _ hx => hx⟩

theorem buckets_create (k : Kconfig) (cma : Nat → Option vc4_bo) (c : vc4_bo_cache)
    (size : Nat) (j : Nat) (x : vc4_bo)
    (h : x ∈ (vc4_bo_create k cma c size).cache.size_list.getD j []) :
    x ∈ c.size_list.getD j [] := by
  rcases create_cases k cma c size with ⟨bo, rest, hi, hb, heq⟩ | ⟨_, heq⟩
  · rw [heq] at h
    simp only [getD_set_bucket] at h
    split at h
    · next hj =>
      rw [← hj.1, hb]
      exact List.mem_cons_of_mem _ h
    · exact h
  · rw [heq] at h; exact h

theorem buckets_free_old (k : Kconfig) (now : Int) (c : vc4_bo_cache) (j : Nat) (x : vc4_bo)
    (h : x ∈ (vc4_bo_cache_free_old k now c).cache.size_list.getD j []) :
    x ∈ c.size_list.getD j [] := by
  rw [free_old_bucket] at h
  exact (List.diff_sublist _ _).subset h

theorem buckets_release (k : Kconfig) (kmalloc_ok : Bool) (now : Int) (c : vc4_bo_cache)
    (bo : vc4_bo) (j : Nat) (x : vc4_bo)
    (h : x ∈ (vc4_free_object k kmalloc_ok now c bo).cache.size_list.getD j []) :
    x ∈ c.size_list.getD j [] ∨
      (x = { bo with free_time := now } ∧ j = bo_page_index k bo.size) := by
  rcases free_object_cases k kmalloc_ok now c bo with heq | ⟨i, c1, _, _, hlook, heq⟩
  · rw [heq] at h; exact Or.inl h
  · rw [heq] at h
    obtain ⟨hi, _, _, hsub⟩ := lookup_frame k kmalloc_ok c c1 bo.size i hlook
    have h1 := buckets_free_old k now _ j x h
    simp only [getD_list_add_bucket] at h1
    split at h1
    · next hj =>
      rcases List.mem_cons.mp h1 with hx | hx
      · exact Or.inr ⟨hx, by rw [← hj.1, hi]⟩
      · rw [hj.1] at hx
        exact Or.inl (hsub j x hx)
    · exact Or.inl (hsub j x h1)

theorem mem_getD_of_mem {L : List (List vc4_bo)} {l : List vc4_bo} {x : vc4_bo}
    (hl : l ∈ L) (hx : x ∈ l) : ∃ j, x ∈ L.getD j [] := by
  obtain ⟨j, hj, hjl⟩ := List.getElem_of_mem hl
  exact ⟨j, by rw [List.getD_eq_getElem _ _ hj, hjl]; exact hx⟩

theorem not_cached_reachable (k : Kconfig) (b : vc4_bo) (c0 c : vc4_bo_cache)
    (h0 : ∀ j, ∀ x ∈ c0.size_list.getD j [], x.id ≠ b.id)
    (h : Reachable k (fun _ bo => bo.id ≠ b.id) c0 c) :
    ∀ j, ∀ x ∈ c.size_list.getD j [], x.id ≠ b.id := by
  induction h with
  | start => exact h0
  | acquire cma size _ ih =>
    intro j x hx
    exact ih j x (buckets_create k cma _ size j x hx)
  | release ok now bo _ hg ih =>
    intro j x hx
    rcases buckets_release k ok now _ bo j x hx with h1 | ⟨h1, _⟩
    · exact ih j x h1
    · rw [h1]; exact hg
  | sweep now _ ih =>
    intro j x hx
    exact ih j x (buckets_free_old k now _ j x hx)

/-- C6. A release of a buffer whose `import_attach` is set or whose public name
is non-zero passes the buffer to `drm_gem_cma_free_object` and leaves the cache as
it is: the bucket array (contents and capacity), the recency queue and the timer.
If the buffer was live, then after any later sequence of acquires, sweeps and
releases of other objects, no `vc4_bo_create` that is served from the cache returns
it, whatever the size and the time. -/
theorem disqualified_release_bypasses_cache (k : Kconfig) (kmalloc_ok : Bool) (now : Int)
    (c : vc4_bo_cache) (b : vc4_bo) (h : b.import_attach = true ∨ b.name ≠ 0) :
    vc4_free_object k kmalloc_ok now c b = ⟨c, [Call.drm_gem_cma_free_object b]⟩ ∧
    (live c b →
      ∀ c1, Reachable k (fun _ bo => bo.id ≠ b.id)
          (vc4_free_object k kmalloc_ok now c b).cache c1 →
        ∀ (cma : Nat → Option vc4_bo) (size : Nat) (x : vc4_bo),
          (vc4_bo_create k cma c1 size).calls = [] →
          (vc4_bo_create k cma c1 size).bo = some x → x.id ≠ b.id) := by
  have heq := free_object_bypass k kmalloc_ok now c b h
  refine ⟨heq, ?_⟩
  intro hlive c1 hreach cma size x hcalls hbo
  rw [heq] at hreach
  have h0 : ∀ j, ∀ y ∈ c.size_list.getD j [], y.id ≠ b.id := by
    intro j y hy
    by_cases hj : j < c.size_list.length
    · rw [List.getD_eq_getElem _ _ hj] at hy
      exact hlive.2 _ (List.getElem_mem hj) y hy
    · rw [List.getD_eq_default _ _ (by omega)] at hy
      simp at hy
  have hinv := not_cached_reachable k b c c1 h0 hreach
  rcases create_cases k cma c1 size with ⟨y, rest, _, hy, hc⟩ | ⟨_, hc⟩
  · rw [hc] at hbo
    simp only [Option.some.injEq] at hbo
    rw [← hbo]
    exact hinv _ y (by rw [hy]; exact List.mem_cons_self _ _)
  · rw [hc] at hcalls
    simp at hcalls

/-- Witness for C6: the publicly named one-page buffer `boNamed` is released while
buffer A is cached; the cache is unchanged, and a later request for one page that
is served from the cache does not return `boNamed`. -/
theorem disqualified_release_bypasses_cache_witness :
    vc4_free_object k32 true 7 (vc4_free_object k32 true 0 vc4_bo_cache_init boA).cache boNamed
        = ⟨(vc4_free_object k32 true 0 vc4_bo_cache_init boA).cache,
            [Call.drm_gem_cma_free_object boNamed]⟩ ∧
      ∀ x : vc4_bo,
        (vc4_bo_create k32 (fun _ => none)
          (vc4_free_object k32 true 7
            (vc4_free_object k32 true 0 vc4_bo_cache_init boA).cache boNamed).cache 4096).calls
          = [] →
        (vc4_bo_create k32 (fun _ => none)
          (vc4_free_object k32 true 7
            (vc4_free_object k32 true 0 vc4_bo_cache_init boA).cache boNamed).cache 4096).bo
          = some x →
        x.id ≠ boNamed.id :=
  have h := disqualified_release_bypasses_cache k32 true 7
    (vc4_free_object k32 true 0 vc4_bo_cache_init boA).cache boNamed (by decide)
  ⟨h.1, fun x => h.2 (by decide) _ Reachable.start (fun _ => none) 4096 x⟩

/-! ## Growth of the bucket array (C7) -/

theorem le_new_size (n key : Nat) (hkey : n ≤ key)
    (h : n * 2 < 2 ^ 32 ∨ key + 1 < 2 ^ 32) : n ≤ new_size n key := by
  unfold new_size
  rcases h with h | h
  · rw [Nat.mod_eq_of_lt h]; omega
  · rw [Nat.mod_eq_of_lt h]; omega

theorem lookup_grow (k : Kconfig) (c : vc4_bo_cache) (size : Nat)
    (hkey : c.size_list_size ≤ bo_page_index k size) :
    vc4_get_cache_list_for_size k true c size =
      some (bo_page_index k size,
        ⟨c.size_list.take (new_size c.size_list_size (bo_page_index k size)) ++
            List.replicate
              (new_size c.size_list_size (bo_page_index k size) - c.size_list_size) [],
          c.time_list, c.time_timer⟩) := by
  unfold vc4_get_cache_list_for_size
  simp only [hkey, if_true]

theorem lookup_no_grow (k : Kconfig) (kmalloc_ok : Bool) (c : vc4_bo_cache) (size : Nat)
    (hkey : bo_page_index k size < c.size_list_size) :
    vc4_get_cache_list_for_size k kmalloc_ok c size = some (bo_page_index k size, c) := by
  unfold vc4_get_cache_list_for_size
  have : ¬ c.size_list_size ≤ bo_page_index k size := by omega
  simp only [this, if_false]

theorem getD_append_replicate_nil (L : List (List vc4_bo)) (m j : Nat) :
    (L ++ List.replicate m []).getD j [] = L.getD j [] := by
  simp only [List.getD_eq_getElem?_getD, List.getElem?_append, List.getElem?_replicate]
  by_cases hj : j < L.length
  · simp [hj]
  · have : L[j]? = none := by simp; omega
    simp only [hj, if_false, this]
    split <;> simp

theorem create_congr (k : Kconfig) (cma : Nat → Option vc4_bo) (c c1 : vc4_bo_cache)
    (s : Nat) (hlen : c.size_list_size ≤ c1.size_list_size)
    (hget : c1.size_list.getD (bo_page_index k s) [] = c.size_list.getD (bo_page_index k s) []) :
    (vc4_bo_create k cma c1 s).bo = (vc4_bo_create k cma c s).bo ∧
      (vc4_bo_create k cma c1 s).calls = (vc4_bo_create k cma c s).calls := by
  rcases create_cases k cma c s with ⟨bo, rest, hi, hb, heq⟩ | ⟨hmiss, heq⟩
  · rw [heq, create_hit k cma c1 s bo rest (by omega) (by rw [hget, hb])]
    exact ⟨rfl, rfl⟩
  · have hnil : c.size_list.getD (bo_page_index k s) [] = [] := by
      rcases hmiss with h | h
      · exact List.getD_eq_default _ _ h
      · exact h
    rw [heq, create_miss k cma c1 s (Or.inr (by rw [hget, hnil]))]
    exact ⟨rfl, rfl⟩

/-- C7. Let the cache, in any state, have `n` buckets and let the key of `size`,
the size of a GEM object (in the range `gem_size_ok`), be at least `n`. When the
growth allocation succeeds, the lookup returns bucket `key` of a new array that
consists of the old buckets, unchanged and in the same order, followed by empty
buckets up to the new capacity; the recency queue and the timer are unchanged; and
every `vc4_bo_create` behaves on the new state as it did on the old one, so a
buffer cached for a smaller size is still acquired after the growth. -/
theorem growth_preserves_buckets (k : Kconfig) (c : vc4_bo_cache) (size : Nat)
    (hsize : gem_size_ok k size)
    (hkey : c.size_list_size ≤ bo_page_index k size) :
    ∃ c1, vc4_get_cache_list_for_size k true c size = some (bo_page_index k size, c1) ∧
      c1.size_list =
        c.size_list ++ List.replicate
          (new_size c.size_list_size (bo_page_index k size) - c.size_list_size) [] ∧
      c1.size_list_size = new_size c.size_list_size (bo_page_index k size) ∧
      (∀ i, i < c.size_list_size → c1.size_list.getD i [] = c.size_list.getD i []) ∧
      (∀ i, c.size_list_size ≤ i → c1.size_list.getD i [] = []) ∧
      c1.time_list = c.time_list ∧ c1.time_timer = c.time_timer ∧
      ∀ (cma : Nat → Option vc4_bo) (s : Nat),
        (vc4_bo_create k cma c1 s).bo = (vc4_bo_create k cma c s).bo ∧
        (vc4_bo_create k cma c1 s).calls = (vc4_bo_create k cma c s).calls := by
  have hn := le_new_size _ _ hkey
    (Or.inr (page_index_succ_lt (page_count_ok_of_gem_size_ok hsize)))
  have htake : c.size_list.take (new_size c.size_list_size (bo_page_index k size)) =
      c.size_list := List.take_of_length_le hn
  refine ⟨_, lookup_grow k c size hkey, ?_, ?_, ?_, ?_, rfl, rfl, ?_⟩
  · simp only [htake]
  · simp only [vc4_bo_cache.size_list_size, length_grow]
  · intro i _
    simp only [htake, getD_append_replicate_nil]
  · intro i hi
    simp only [htake, getD_append_replicate_nil]
    exact List.getD_eq_default _ _ hi
  · intro cma s
    apply create_congr
    · simp only [vc4_bo_cache.size_list_size, length_grow]
      exact hn
    · simp only [htake, getD_append_replicate_nil]

/-- Witness for C7: buffer A (one page) is cached in an array of one bucket; the
lookup for a size of three pages grows the array to three buckets, and a request
for one page is served with A after the growth as before it. -/
theorem growth_preserves_buckets_witness :
    ∃ c1, vc4_get_cache_list_for_size k32 true
        (vc4_free_object k32 true 0 vc4_bo_cache_init boA).cache 12288 =
          some (bo_page_index k32 12288, c1) ∧
      c1.size_list =
        (vc4_free_object k32 true 0 vc4_bo_cache_init boA).cache.size_list ++
          List.replicate
            (new_size (vc4_free_object k32 true 0 vc4_bo_cache_init boA).cache.size_list_size
              (bo_page_index k32 12288) -
              (vc4_free_object k32 true 0 vc4_bo_cache_init boA).cache.size_list_size) [] ∧
      (vc4_bo_create k32 (fun _ => none) c1 4096).bo =
        (vc4_bo_create k32 (fun _ => none)
          (vc4_free_object k32 true 0 vc4_bo_cache_init boA).cache 4096).bo :=
  have ⟨c1, h1, h2, _, _, _, _, _, h3⟩ := growth_preserves_buckets k32
    (vc4_free_object k32 true 0 vc4_bo_cache_init boA).cache 12288 (by decide) (by decide)
  ⟨c1, h1, h2, (h3 (fun _ => none) 4096).1⟩

/-! ## The capacity rule (C8) -/

theorem create_size_list_size (k : Kconfig) (cma : Nat → Option vc4_bo) (c : vc4_bo_cache)
    (size : Nat) : (vc4_bo_create k cma c size).cache.size_list_size = c.size_list_size := by
  rcases create_cases k cma c size with ⟨bo, rest, _, _, heq⟩ | ⟨_, heq⟩
  · rw [heq]; simp [vc4_bo_cache.size_list_size]
  · rw [heq]

theorem lookup_size_list_size (k : Kconfig) (kmalloc_ok : Bool) (c c1 : vc4_bo_cache)
    (size i : Nat) (h : vc4_get_cache_list_for_size k kmalloc_ok c size = some (i, c1)) :
    (bo_page_index k size < c.size_list_size ∧ c1 = c) ∨
      (c.size_list_size ≤ bo_page_index k size ∧
        c1.size_list_size = new_size c.size_list_size (bo_page_index k size)) := by
  by_cases hkey : c.size_list_size ≤ bo_page_index k size
  · right
    refine ⟨hkey, ?_⟩
    cases kmalloc_ok with
    | false =>
      have := (lookup_null_iff k false c size).mpr ⟨hkey, rfl⟩
      rw [this] at h
      exact Option.noConfusion h
    | true =>
      rw [lookup_grow k c size hkey] at h
      simp only [Option.some.injEq, Prod.mk.injEq] at h
      rw [← h.2]
      simp only [vc4_bo_cache.size_list_size, length_grow]
  · left
    have hlt : bo_page_index k size < c.size_list_size := by omega
    rw [lookup_no_grow k kmalloc_ok c size hlt] at h
    simp only [Option.some.injEq, Prod.mk.injEq] at h
    exact ⟨hlt, h.2.symm⟩

theorem release_size_list_size (k : Kconfig) (kmalloc_ok : Bool) (now : Int)
    (c : vc4_bo_cache) (bo : vc4_bo)
    (h : c.size_list_size * 2 < 2 ^ 32 ∨ page_count_ok k bo.size) :
    c.size_list_size ≤ (vc4_free_object k kmalloc_ok now c bo).cache.size_list_size := by
  rcases free_object_cases k kmalloc_ok now c bo with heq | ⟨i, c1, _, _, hlook, heq⟩
  · rw [heq]
  · rw [heq, free_old_size_list_size]
    simp only [vc4_bo_cache.size_list_size, length_list_add_bucket]
    rcases lookup_size_list_size k kmalloc_ok c c1 bo.size i hlook with ⟨_, h1⟩ | ⟨hkey, h1⟩
    · rw [h1]
    · simp only [vc4_bo_cache.size_list_size] at h1 hkey h
      rw [h1]
      apply le_new_size _ _ hkey
      rcases h with h | h
      · exact Or.inl h
      · exact Or.inr (page_index_succ_lt h)

/-- C8. With `n` the capacity and `key` the page index of `size`, for every `n`
and every `size`: `key` is `size / PAGE_SIZE - 1` when `size` is the size of a GEM
object; the lookup leaves the cache as it is when `key < n`; when
`key ≥ n` and the allocation succeeds it returns bucket `key` and sets the capacity
to exactly `max (2 * n) (key + 1)` in 32-bit unsigned arithmetic, which is more
than `n` when `size` is the size of a GEM object (in the range `gem_size_ok`).
Consequently the capacity never decreases over any sequence of acquires, sweeps
and releases of GEM objects, from any state. -/
theorem capacity_rule (k : Kconfig) (c : vc4_bo_cache) (size : Nat) :
    (gem_size_ok k size → bo_page_index k size = size / k.PAGE_SIZE - 1) ∧
    (∀ kmalloc_ok, bo_page_index k size < c.size_list_size →
        vc4_get_cache_list_for_size k kmalloc_ok c size = some (bo_page_index k size, c)) ∧
    (c.size_list_size ≤ bo_page_index k size →
        ∃ c1, vc4_get_cache_list_for_size k true c size = some (bo_page_index k size, c1) ∧
          c1.size_list_size =
            max ((c.size_list_size * 2) % 2 ^ 32) ((bo_page_index k size + 1) % 2 ^ 32) ∧
          (gem_size_ok k size → c.size_list_size < c1.size_list_size)) ∧
    (∀ c2, Reachable k (fun _ bo => gem_size_ok k bo.size) c c2 →
        c.size_list_size ≤ c2.size_list_size) := by
  refine ⟨fun h => ?_, fun ok h => lookup_no_grow k ok c size h, ?_, ?_⟩
  · have := page_index_of_gem_size_ok h
    omega
  · intro hkey
    refine ⟨_, lookup_grow k c size hkey, ?_, ?_⟩
    · simp only [vc4_bo_cache.size_list_size, length_grow, new_size]
    · intro hw
      have hlt := page_index_lt_new_size c.size_list_size (page_count_ok_of_gem_size_ok hw)
      simp only [vc4_bo_cache.size_list_size, length_grow] at hkey hlt ⊢
      omega
  · intro c2 hreach
    induction hreach with
    | start => exact Nat.le_refl _
    | acquire cma s _ ih => rw [create_size_list_size]; exact ih
    | release ok now bo _ hg ih =>
      exact Nat.le_trans ih
        (release_size_list_size k ok now _ bo (Or.inr (page_count_ok_of_gem_size_ok hg)))
    | sweep now _ ih => rw [free_old_size_list_size]; exact ih

/-! ## Failure of the growth allocation (C9) -/

/-- C9. For a buffer whose key is at least the current capacity (the buffers that
reach the lookup are the ones that are not imported and not named): if the growth
allocation fails, the lookup returns `NULL`, and `vc4_free_object` passes the
buffer to `drm_gem_cma_free_object` and leaves the cache exactly as it was: the
bucket array (contents and capacity), the recency queue and the timer. -/
theorem growth_failure_is_atomic (k : Kconfig) (now : Int) (c : vc4_bo_cache) (b : vc4_bo)
    (hkey : c.size_list_size ≤ bo_page_index k b.size) :
    vc4_get_cache_list_for_size k false c b.size = none ∧
      vc4_free_object k false now c b = ⟨c, [Call.drm_gem_cma_free_object b]⟩ ∧
      (vc4_free_object k false now c b).cache.size_list = c.size_list ∧
      (vc4_free_object k false now c b).cache.size_list_size = c.size_list_size ∧
      (vc4_free_object k false now c b).cache.time_list = c.time_list ∧
      (vc4_free_object k false now c b).cache.time_timer = c.time_timer := by
  have hnull := (lookup_null_iff k false c b.size).mpr ⟨hkey, rfl⟩
  have heq := free_object_null k false now c b hnull
  refine ⟨hnull, heq, ?_, ?_, ?_, ?_⟩ <;> rw [heq]

/-- Witness for C9: buffer A is cached in an array of one bucket; the release of
the two-page buffer B, which is not imported and not named, needs a second bucket,
the allocation fails, and B is freed while A stays cached. -/
theorem growth_failure_is_atomic_witness :
    boB.import_attach = false ∧ boB.name = 0 ∧
      vc4_get_cache_list_for_size k32 false
        (vc4_free_object k32 true 0 vc4_bo_cache_init boA).cache boB.size = none ∧
      vc4_free_object k32 false 5 (vc4_free_object k32 true 0 vc4_bo_cache_init boA).cache boB =
        ⟨(vc4_free_object k32 true 0 vc4_bo_cache_init boA).cache,
          [Call.drm_gem_cma_free_object boB]⟩ :=
  have h := growth_failure_is_atomic k32 5
    (vc4_free_object k32 true 0 vc4_bo_cache_init boA).cache boB (by decide)
  ⟨rfl, rfl, h.1, h.2.1⟩

/-! ## Cache first, then allocate (C10) -/

theorem dumb_fixup_handle (args : drm_mode_create_dumb) :
    (dumb_fixup args).handle = args.handle := by
  unfold dumb_fixup
  simp only
  split <;> split <;> rfl

/-- C10. `vc4_bo_create` returns the first buffer of the bucket for `size`, with
its reference count set to one, and makes no external call when that bucket exists
and is not empty; otherwise it calls `drm_gem_cma_create` for `size` exactly once,
returns what that call yields and leaves the cache as it is. It returns `NULL`
exactly when the cache misses and the external allocation fails; in that case
`vc4_dumb_create` returns `-ENOMEM`, makes no call of `drm_gem_handle_create` and
leaves the handle field of its argument block as it was. -/
theorem cache_first_then_allocate (k : Kconfig) (cma : Nat → Option vc4_bo)
    (c : vc4_bo_cache) (size : Nat) :
    (∀ bo rest, bo_page_index k size < c.size_list_size →
        c.size_list.getD (bo_page_index k size) [] = bo :: rest →
        vc4_bo_create k cma c size =
          ⟨some { bo with refcount := 1 },
           { c with size_list := c.size_list.set (bo_page_index k size) rest,
                    time_list := c.time_list.erase bo }, []⟩) ∧
    (c.size_list_size ≤ bo_page_index k size ∨
        c.size_list.getD (bo_page_index k size) [] = [] →
        vc4_bo_create k cma c size = ⟨cma size, c, [Call.drm_gem_cma_create size]⟩) ∧
    ((vc4_bo_create k cma c size).bo = none ↔
        ((c.size_list_size ≤ bo_page_index k size ∨
            c.size_list.getD (bo_page_index k size) [] = []) ∧ cma size = none)) ∧
    (∀ (handle_create : vc4_bo → Int × Nat) (args : drm_mode_create_dumb),
        (vc4_bo_create k cma c (dumb_size k args)).bo = none →
        (vc4_dumb_create k cma handle_create c args).ret = -ENOMEM ∧
        (∀ b, Call.drm_gem_handle_create b ∉ (vc4_dumb_create k cma handle_create c args).calls) ∧
        (vc4_dumb_create k cma handle_create c args).args.handle = args.handle) := by
  refine ⟨fun bo rest hi hb => create_hit k cma c size bo rest hi hb,
    fun h => create_miss k cma c size h, ?_, ?_⟩
  · rcases create_cases k cma c size with ⟨bo, rest, hi, hb, heq⟩ | ⟨hmiss, heq⟩
    · rw [heq]
      constructor
      · intro h; exact Option.noConfusion h
      · rintro ⟨h | h, _⟩
        · omega
        · rw [hb] at h; exact List.noConfusion h
    · rw [heq]
      exact ⟨fun h => ⟨hmiss, h⟩, fun h => h.2⟩
  · intro handle_create args hnull
    have hcalls : (vc4_bo_create k cma c (dumb_size k args)).calls =
        [Call.drm_gem_cma_create (dumb_size k args)] := by
      rcases create_cases k cma c (dumb_size k args) with ⟨bo, rest, _, _, heq⟩ | ⟨_, heq⟩
      · rw [heq] at hnull; exact Option.noConfusion hnull
      · rw [heq]
    unfold vc4_dumb_create
    simp only [hnull, hcalls]
    refine ⟨trivial, ?_, dumb_fixup_handle args⟩
    intro b hb
    simp at hb

/-! ## The timer of the cache (C11, C12, C13) -/

theorem free_old_time_timer (k : Kconfig) (now : Int) (c : vc4_bo_cache) :
    (vc4_bo_cache_free_old k now c).cache.time_timer =
      if retained k now c = [] then c.time_timer
      else some (k.round_jiffies_up (now + msecs_to_jiffies k 1000)) := by
  rw [free_old_eq_summary]
  unfold free_old_summary
  split <;> rfl

theorem free_old_calls (k : Kconfig) (now : Int) (c : vc4_bo_cache) :
    (vc4_bo_cache_free_old k now c).calls =
      (evicted k now c).map Call.drm_gem_cma_free_object ++
        if retained k now c = [] then []
        else [Call.mod_timer (k.round_jiffies_up (now + msecs_to_jiffies k 1000))] := by
  rw [free_old_eq_summary]
  unfold free_old_summary
  split <;> simp

theorem mod_timer_mem_calls (k : Kconfig) (now : Int) (c : vc4_bo_cache) (t : Int) :
    Call.mod_timer t ∈ (vc4_bo_cache_free_old k now c).calls ↔
      retained k now c ≠ [] ∧ t = k.round_jiffies_up (now + msecs_to_jiffies k 1000) := by
  rw [free_old_calls]
  by_cases h : retained k now c = []
  · simp [h]
  · simp [h]

theorem last_retained_not_expired (k : Kconfig) (now : Int) (c : vc4_bo_cache) (e : vc4_bo)
    (h : (retained k now c).getLast? = some e) : expired k now e = false := by
  unfold retained at h
  rw [List.getLast?_reverse] at h
  have h1 := List.head?_dropWhile_not (expired k now) c.time_list.reverse
  rw [h] at h1
  exact h1

/-- C11 (as amended). When `vc4_bo_cache_free_old` at time `now` stops because the
oldest remaining entry `e` has not yet expired (`now < e.free_time + grace`), it
arms the timer, with one `mod_timer` call, for the deadline
`round_jiffies_up (now + grace)`. That deadline is computed from the time of the
sweep and not from `e.free_time`; it is not earlier than the time
`e.free_time + grace` at which `e` expires, provided `e` was released no later
than `now` and `round_jiffies_up` does not round down. -/
theorem timer_deadline_of_sweep (k : Kconfig) (now : Int) (c : vc4_bo_cache) (e : vc4_bo)
    (h : (vc4_bo_cache_free_old k now c).cache.time_list.getLast? = some e) :
    now < e.free_time + msecs_to_jiffies k 1000 ∧
      (vc4_bo_cache_free_old k now c).cache.time_timer =
        some (k.round_jiffies_up (now + msecs_to_jiffies k 1000)) ∧
      Call.mod_timer (k.round_jiffies_up (now + msecs_to_jiffies k 1000)) ∈
        (vc4_bo_cache_free_old k now c).calls ∧
      (e.free_time ≤ now → (∀ x, x ≤ k.round_jiffies_up x) →
        e.free_time + msecs_to_jiffies k 1000 ≤
          k.round_jiffies_up (now + msecs_to_jiffies k 1000)) := by
  rw [free_old_time_list] at h
  have hne : retained k now c ≠ [] := by
    intro h0; rw [h0] at h; exact Option.noConfusion h
  have hnot := last_retained_not_expired k now c e h
  refine ⟨?_, ?_, ?_, ?_⟩
  · by_contra hcon
    have : expired k now e = true := (expired_iff k now e).mpr (by omega)
    rw [hnot] at this
    exact Bool.noConfusion this
  · rw [free_old_time_timer, if_neg hne]
  · exact (mod_timer_mem_calls k now c _).mpr ⟨hne, rfl⟩
  · intro hle hround
    have := hround (now + msecs_to_jiffies k 1000)
    omega

/-- Witness for C11: buffer A is released at `t = 0`; the sweep at `t = 99` keeps
it and arms the timer for `round_jiffies_up (99 + 100) = 200`. -/
theorem timer_deadline_of_sweep_witness :
    (99 : Int) < ({ boA with free_time := 0 } : vc4_bo).free_time + msecs_to_jiffies k32 1000 ∧
      (vc4_bo_cache_free_old k32 99
        (vc4_free_object k32 true 0 vc4_bo_cache_init boA).cache).cache.time_timer =
          some (k32.round_jiffies_up (99 + msecs_to_jiffies k32 1000)) :=
  have h := timer_deadline_of_sweep k32 99
    (vc4_free_object k32 true 0 vc4_bo_cache_init boA).cache { boA with free_time := 0 }
    (by decide)
  ⟨h.1, h.2.1⟩

/-- C11 (as stated) fails: buffer A is released at `t = 0` and the sweep at
`t = 99` stops at it. A expires at `0 + 100 = 100`, which is on a tick boundary
(`round_jiffies_up 100 = 100`), but the deadline that the sweep arms is 200, a
whole second later. -/
theorem timer_deadline_of_sweep_counterexample :
    (vc4_bo_cache_free_old k32 99
        (vc4_free_object k32 true 0 vc4_bo_cache_init boA).cache).cache.time_list.getLast? =
        some { boA with free_time := 0 } ∧
      ({ boA with free_time := 0 } : vc4_bo).free_time + msecs_to_jiffies k32 1000 = 100 ∧
      k32.round_jiffies_up 100 = 100 ∧
      (vc4_bo_cache_free_old k32 99
        (vc4_free_object k32 true 0 vc4_bo_cache_init boA).cache).cache.time_timer = some 200 ∧
      (vc4_bo_cache_free_old k32 99
        (vc4_free_object k32 true 0 vc4_bo_cache_init boA).cache).calls = [Call.mod_timer 200] := by
  decide

/-- C12. Whenever `vc4_bo_cache_free_old` at time `now` calls `mod_timer`, the
deadline is `round_jiffies_up (now + msecs_to_jiffies 1000)`, an expression in
which no cached buffer occurs; the timer is then pending for exactly that
deadline, whatever deadline was pending before; and there is at most one such
call in a sweep. -/
theorem rearm_value (k : Kconfig) (now : Int) (c : vc4_bo_cache) :
    (∀ t, Call.mod_timer t ∈ (vc4_bo_cache_free_old k now c).calls →
        t = k.round_jiffies_up (now + msecs_to_jiffies k 1000) ∧
        (vc4_bo_cache_free_old k now c).cache.time_timer = some t) ∧
    (∀ t, (vc4_bo_cache_free_old k now c).calls.count (Call.mod_timer t) ≤ 1) ∧
    (∀ previous : Option Int,
        (vc4_bo_cache_free_old k now { c with time_timer := previous }).calls =
          (vc4_bo_cache_free_old k now c).calls ∧
        ((vc4_bo_cache_free_old k now c).cache.time_list ≠ [] →
          (vc4_bo_cache_free_old k now { c with time_timer := previous }).cache.time_timer =
            (vc4_bo_cache_free_old k now c).cache.time_timer)) := by
  refine ⟨?_, ?_, ?_⟩
  · intro t ht
    obtain ⟨hne, heq⟩ := (mod_timer_mem_calls k now c t).mp ht
    refine ⟨heq, ?_⟩
    rw [free_old_time_timer, if_neg hne, heq]
  · intro t
    rw [free_old_calls, List.count_append]
    have h0 : ((evicted k now c).map Call.drm_gem_cma_free_object).count (Call.mod_timer t) = 0 := by
      apply List.count_eq_zero_of_not_mem
      intro hm
      obtain ⟨x, _, hx⟩ := List.mem_map.mp hm
      exact Call.noConfusion hx
    rw [h0]
    split
    · simp
    · simp only [List.count_cons, List.count_nil]
      split <;> omega
  · intro previous
    have hr : retained k now { c with time_timer := previous } = retained k now c := rfl
    have he : evicted k now { c with time_timer := previous } = evicted k now c := rfl
    refine ⟨?_, ?_⟩
    · rw [free_old_calls, free_old_calls, hr, he]
    · intro hne
      rw [free_old_time_list] at hne
      rw [free_old_time_timer, free_old_time_timer, hr, if_neg hne, if_neg hne]

/-- C13. `vc4_bo_cache_free_old` calls `mod_timer` exactly when the recency queue
is not empty when the sweep returns. A sweep that leaves the queue empty, because
it evicts every entry or because the queue was empty, makes no `mod_timer` call
and leaves the pending deadline of the timer as it was; on an empty queue it does
nothing at all. -/
theorem timer_armed_iff_nonempty (k : Kconfig) (now : Int) (c : vc4_bo_cache) :
    ((∃ t, Call.mod_timer t ∈ (vc4_bo_cache_free_old k now c).calls) ↔
        (vc4_bo_cache_free_old k now c).cache.time_list ≠ []) ∧
    ((vc4_bo_cache_free_old k now c).cache.time_list = [] →
        (∀ t, Call.mod_timer t ∉ (vc4_bo_cache_free_old k now c).calls) ∧
        (vc4_bo_cache_free_old k now c).cache.time_timer = c.time_timer) ∧
    (c.time_list = [] → vc4_bo_cache_free_old k now c = ⟨c, []⟩) := by
  refine ⟨?_, ?_, ?_⟩
  · rw [free_old_time_list]
    constructor
    · rintro ⟨t, ht⟩
      exact ((mod_timer_mem_calls k now c t).mp ht).1
    · intro hne
      exact ⟨_, (mod_timer_mem_calls k now c _).mpr ⟨hne, rfl⟩⟩
  · intro hnil
    rw [free_old_time_list] at hnil
    refine ⟨?_, ?_⟩
    · intro t ht
      exact ((mod_timer_mem_calls k now c t).mp ht).1 hnil
    · rw [free_old_time_timer, if_pos hnil]
  · intro h0
    obtain ⟨L, tl, tm⟩ := c
    simp only at h0
    subst h0
    rfl

/-! ## Teardown (C14) -/

/-- C14 (as amended). `vc4_drm_unload` makes seven calls, the last of which frees
the device structure that holds the bucket array and the recency queue. None of
them drains `bo_cache.time_work` or disarms `bo_cache.time_timer`: a deadline that
is pending on the timer, and a sweep work that is queued, are still pending when
the structure has been freed. -/
theorem unload_frees_without_draining (d : vc4_dev) :
    (vc4_drm_unload d).calls =
        [TeardownCall.drm_mode_config_cleanup,
         TeardownCall.drm_irq_uninstall,
         TeardownCall.vc4_set_platform_qpu_enable false,
         TeardownCall.devm_iounmap RegisterMap.vc4_regs,
         TeardownCall.devm_iounmap RegisterMap.hvs_regs,
         TeardownCall.devm_iounmap RegisterMap.hvs_ctx,
         TeardownCall.kfree_dev_private] ∧
      TeardownCall.cancel_work_sync_time_work ∉ (vc4_drm_unload d).calls ∧
      TeardownCall.del_timer_sync_time_timer ∉ (vc4_drm_unload d).calls ∧
      ¬ drained_before_free (vc4_drm_unload d).calls ∧
      (vc4_drm_unload d).dev.freed = true ∧
      (vc4_drm_unload d).dev.bo_cache = d.bo_cache ∧
      (vc4_drm_unload d).dev.bo_cache.time_timer = d.bo_cache.time_timer ∧
      (vc4_drm_unload d).dev.time_work_pending = d.time_work_pending ∧
      (vc4_drm_unload d).ret = 0 := by
  refine ⟨rfl, ?_, ?_, ?_, rfl, rfl, rfl, rfl, rfl⟩
  · simp [vc4_drm_unload]
  · simp [vc4_drm_unload]
  · show ¬ drained_before_free
      [TeardownCall.drm_mode_config_cleanup,
       TeardownCall.drm_irq_uninstall,
       TeardownCall.vc4_set_platform_qpu_enable false,
       TeardownCall.devm_iounmap RegisterMap.vc4_regs,
       TeardownCall.devm_iounmap RegisterMap.hvs_regs,
       TeardownCall.devm_iounmap RegisterMap.hvs_ctx,
       TeardownCall.kfree_dev_private]
    decide

/-- C14 (as stated) fails: buffer A is released at `t = 0`, which arms the timer
for the deadline 100; `vc4_drm_unload` then frees the device structure while that
deadline is still pending, and its calls contain neither `cancel_work_sync` nor
`del_timer_sync`. -/
theorem unload_frees_without_draining_counterexample :
    (vc4_free_object k32 true 0 vc4_bo_cache_init boA).cache.time_timer = some 100 ∧
      (vc4_drm_unload
        ⟨(vc4_free_object k32 true 0 vc4_bo_cache_init boA).cache, false, false⟩).dev.freed
        = true ∧
      (vc4_drm_unload
        ⟨(vc4_free_object k32 true 0 vc4_bo_cache_init boA).cache, false,
          false⟩).dev.bo_cache.time_timer = some 100 ∧
      ¬ drained_before_free
        (vc4_drm_unload
          ⟨(vc4_free_object k32 true 0 vc4_bo_cache_init boA).cache, false, false⟩).calls := by
  decide

/-! ## The frame of an acquire (C15) -/

/-- C15. In a state in which buckets and queue are in lock step, a cache hit of
`vc4_bo_create` returns the first buffer `bo` of the bucket for `size` with its
reference count set to one and makes no external call; `bo` is removed from its
bucket, whose other entries stay in order, and from the recency queue, whose other
entries stay in order; afterwards `bo` is in no bucket and not on the queue; every
other bucket, the capacity and the timer are unchanged, and the entries that stay
are the same records, so their `free_time` is unchanged. A cache miss (key at least
the capacity, or bucket empty) leaves the whole cache state as it is; in particular
the bucket array does not grow. -/
theorem acquire_frame (k : Kconfig) (cma : Nat → Option vc4_bo) (c : vc4_bo_cache)
    (size : Nat) (hinv : lockstep c) :
    (∀ bo rest, bo_page_index k size < c.size_list_size →
        c.size_list.getD (bo_page_index k size) [] = bo :: rest →
        (vc4_bo_create k cma c size).bo = some { bo with refcount := 1 } ∧
        (vc4_bo_create k cma c size).calls = [] ∧
        (vc4_bo_create k cma c size).cache.size_list.getD (bo_page_index k size) [] = rest ∧
        (∀ j, j ≠ bo_page_index k size →
          (vc4_bo_create k cma c size).cache.size_list.getD j [] = c.size_list.getD j []) ∧
        (vc4_bo_create k cma c size).cache.size_list_size = c.size_list_size ∧
        (vc4_bo_create k cma c size).cache.time_timer = c.time_timer ∧
        (vc4_bo_create k cma c size).cache.time_list = c.time_list.erase bo ∧
        (vc4_bo_create k cma c size).cache.time_list.Sublist c.time_list ∧
        (vc4_bo_create k cma c size).cache.time_list.length + 1 = c.time_list.length ∧
        bo ∈ c.time_list ∧
        bo ∉ (vc4_bo_create k cma c size).cache.time_list ∧
        (∀ l ∈ (vc4_bo_create k cma c size).cache.size_list, bo ∉ l) ∧
        (∀ x, x ≠ bo →
          (x ∈ (vc4_bo_create k cma c size).cache.time_list ↔ x ∈ c.time_list))) ∧
    (c.size_list_size ≤ bo_page_index k size ∨
        c.size_list.getD (bo_page_index k size) [] = [] →
        (vc4_bo_create k cma c size).cache = c ∧
        (vc4_bo_create k cma c size).calls = [Call.drm_gem_cma_create size]) := by
  constructor
  · intro bo rest hi hb
    have hinv2 := lockstep_create k cma c size hinv
    have heq := create_hit k cma c size bo rest hi hb
    have hmem_flat : bo ∈ c.size_list.flatten := by
      have hlt : bo_page_index k size < c.size_list.length := hi
      apply List.mem_flatten.mpr
      refine ⟨c.size_list.getD (bo_page_index k size) [], ?_, ?_⟩
      · rw [List.getD_eq_getElem _ _ hlt]; exact List.getElem_mem hlt
      · rw [hb]; exact List.mem_cons_self _ _
    have hmem : bo ∈ c.time_list := hinv.2.mem_iff.mp hmem_flat
    have hnd : c.time_list.Nodup := List.Nodup.of_map _ hinv.1
    have hnot : bo ∉ c.time_list.erase bo := fun h => ((hnd.mem_erase_iff).mp h).1 rfl
    rw [heq] at hinv2 ⊢
    refine ⟨?_, ?_, ?_, ?_, ?_, ?_, ?_, ?_, ?_, ?_, ?_, ?_, ?_⟩
    · rfl
    · rfl
    · simp only [getD_set_bucket]
      rw [if_pos ⟨trivial, hi⟩]
    · intro j hj
      simp only [getD_set_bucket]
      rw [if_neg (fun h => hj h.1.symm)]
    · simp [vc4_bo_cache.size_list_size]
    · rfl
    · rfl
    · exact List.erase_sublist _ _
    · simp only [List.length_erase_of_mem hmem]
      have : 0 < c.time_list.length := List.length_pos_of_mem hmem
      omega
    · exact hmem
    · exact hnot
    · intro l hl hbl
      exact hnot (hinv2.2.mem_iff.mp (List.mem_flatten.mpr ⟨l, hl, hbl⟩))
    · intro x hx
      exact List.mem_erase_of_ne hx
  · intro h
    rw [create_miss k cma c size h]
    exact ⟨rfl, rfl⟩

/-- Witness for C15: buffers A (one page) and B (two pages) are cached; a request
for one page takes A and leaves B where it was. -/
theorem acquire_frame_witness :
    (vc4_bo_create k32 (fun _ => none)
        (vc4_free_object k32 true 5
          (vc4_free_object k32 true 0 vc4_bo_cache_init boA).cache boB).cache 4096).bo =
        some { boA with refcount := 1 } ∧
      (vc4_bo_create k32 (fun _ => none)
        (vc4_free_object k32 true 5
          (vc4_free_object k32 true 0 vc4_bo_cache_init boA).cache boB).cache 4096).cache.time_list =
        ((vc4_free_object k32 true 5
          (vc4_free_object k32 true 0 vc4_bo_cache_init boA).cache boB).cache.time_list).erase
            boA :=
  have h := (acquire_frame k32 (fun _ => none)
    (vc4_free_object k32 true 5
      (vc4_free_object k32 true 0 vc4_bo_cache_init boA).cache boB).cache 4096 (by decide)).1
    boA [] (by decide) (by decide)
  ⟨h.1, h.2.2.2.2.2.2.1⟩

/-! ## The recency queue under a clock (C16) -/

theorem create_time_list_sublist (k : Kconfig) (cma : Nat → Option vc4_bo) (c : vc4_bo_cache)
    (size : Nat) : (vc4_bo_create k cma c size).cache.time_list.Sublist c.time_list := by
  rcases create_cases k cma c size with ⟨bo, rest, _, _, heq⟩ | ⟨_, heq⟩
  · rw [heq]; exact List.erase_sublist _ _
  · rw [heq]

theorem free_old_time_list_prefix (k : Kconfig) (now : Int) (c : vc4_bo_cache) :
    (vc4_bo_cache_free_old k now c).cache.time_list <+: c.time_list := by
  rw [free_old_time_list]; exact retained_prefix k now c

theorem timer_fires_time_list (k : Kconfig) (now : Int) (c : vc4_bo_cache) :
    (timer_fires k now c).cache.time_list = (vc4_bo_cache_free_old k now c).cache.time_list := by
  unfold timer_fires vc4_bo_cache_time_work
  rw [free_old_time_list, free_old_time_list]
  rfl

theorem free_object_time_list (k : Kconfig) (kmalloc_ok : Bool) (now : Int) (c : vc4_bo_cache)
    (bo : vc4_bo) :
    (vc4_free_object k kmalloc_ok now c bo).cache.time_list = c.time_list ∨
      (vc4_free_object k kmalloc_ok now c bo).cache.time_list =
        retained k now ⟨[], { bo with free_time := now } :: c.time_list, none⟩ := by
  rcases free_object_cases k kmalloc_ok now c bo with heq | ⟨i, c1, _, _, hlook, heq⟩
  · left; rw [heq]
  · right
    obtain ⟨_, htl, _, _⟩ := lookup_frame k kmalloc_ok c c1 bo.size i hlook
    rw [heq, free_old_time_list]
    unfold retained
    simp only [htl]

theorem free_object_time_list_prefix (k : Kconfig) (kmalloc_ok : Bool) (now : Int)
    (c : vc4_bo_cache) (bo : vc4_bo) :
    (vc4_free_object k kmalloc_ok now c bo).cache.time_list = c.time_list ∨
      (vc4_free_object k kmalloc_ok now c bo).cache.time_list <+:
        { bo with free_time := now } :: c.time_list := by
  rcases free_object_time_list k kmalloc_ok now c bo with h | h
  · exact Or.inl h
  · right
    rw [h]
    exact retained_prefix k now ⟨[], { bo with free_time := now } :: c.time_list, none⟩

theorem dropWhile_append_singleton (p : vc4_bo → Bool) (b : vc4_bo) (hb : p b = false) :
    ∀ X : List vc4_bo, (X ++ [b]).dropWhile p = X.dropWhile p ++ [b] := by
  intro X
  induction X with
  | nil => simp [List.dropWhile, hb]
  | cons a X ih =>
    by_cases ha : p a = true
    · simp only [List.cons_append, List.dropWhile_cons_of_pos ha, ih]
    · simp only [List.cons_append, List.dropWhile_cons_of_neg ha]

theorem retained_cons_head (k : Kconfig) (now : Int) (L : List (List vc4_bo)) (b : vc4_bo)
    (tl : List vc4_bo) (tm : Option Int) (h0 : expired k now b = false) :
    (retained k now ⟨L, b :: tl, tm⟩).head? = some b := by
  unfold retained
  simp only [List.reverse_cons]
  rw [dropWhile_append_singleton _ b h0]
  simp

theorem free_object_time_list_head (k : Kconfig) (kmalloc_ok : Bool) (now : Int)
    (c : vc4_bo_cache) (bo : vc4_bo) (hHZ : 0 < k.HZ) (himp : bo.import_attach = false)
    (hname : bo.name = 0)
    (hlook : vc4_get_cache_list_for_size k kmalloc_ok c bo.size ≠ none) :
    (vc4_free_object k kmalloc_ok now c bo).cache.time_list.head? =
      some { bo with free_time := now } := by
  obtain ⟨⟨i, c1⟩, hl⟩ := Option.ne_none_iff_exists'.mp hlook
  rw [free_object_cached k kmalloc_ok now c c1 bo i himp hname hl, free_old_time_list]
  have hgrace : (0 : Int) < msecs_to_jiffies k 1000 := by
    rw [msecs_to_jiffies_1000]; exact_mod_cast hHZ
  have h0 : expired k now { bo with free_time := now } = false :=
    not_expired_of_lt k now _ (by simpa using hgrace)
  exact retained_cons_head k now _ _ _ _ h0

theorem ordered_reachable (k : Kconfig) (G : vc4_bo_cache → vc4_bo → Prop) (t : Int)
    (c : vc4_bo_cache) (h : ReachableAt k G t c) :
    time_ordered c ∧ ∀ b ∈ c.time_list, b.free_time ≤ t := by
  induction h with
  | start t =>
    exact ⟨by simp [time_ordered, vc4_bo_cache_init], by simp [vc4_bo_cache_init]⟩
  | @acquire t0 c0 now cma size hle _ ih =>
    have hsub := create_time_list_sublist k cma c0 size
    exact ⟨List.Pairwise.sublist hsub ih.1,
      fun b hb => le_trans (ih.2 b (hsub.subset hb)) hle⟩
  | @release t0 c0 now ok bo hle _ _ ih =>
    have hcons : List.Pairwise (fun a b : vc4_bo => b.free_time ≤ a.free_time)
        ({ bo with free_time := now } :: c0.time_list) :=
      List.pairwise_cons.mpr ⟨fun x hx => le_trans (ih.2 x hx) hle, ih.1⟩
    rcases free_object_time_list_prefix k ok now c0 bo with h | h
    · unfold time_ordered
      rw [h]
      exact ⟨ih.1, fun b hb => le_trans (ih.2 b hb) hle⟩
    · refine ⟨List.Pairwise.sublist h.sublist hcons, ?_⟩
      intro b hb
      rcases List.mem_cons.mp (h.subset hb) with hb1 | hb1
      · rw [hb1]
      · exact le_trans (ih.2 b hb1) hle
  | @sweep t0 c0 now hle _ ih =>
    have hpre := free_old_time_list_prefix k now c0
    exact ⟨List.Pairwise.sublist hpre.sublist ih.1,
      fun b hb => le_trans (ih.2 b (hpre.subset hb)) hle⟩
  | @timer t0 c0 now d hle _ _ _ ih =>
    have hpre := free_old_time_list_prefix k now c0
    unfold time_ordered
    rw [timer_fires_time_list]
    exact ⟨List.Pairwise.sublist hpre.sublist ih.1,
      fun b hb => le_trans (ih.2 b (hpre.subset hb)) hle⟩

/-- C16. In every state reachable from the empty cache by acquire, release and
sweep steps (timer-fired sweeps included) under a clock that does not go back, the
recency queue is ordered by `free_time`, newest at the head, and no cached buffer
was released after the current time. A release that caches its buffer puts it at
the head of the queue; after a release the queue is an initial segment of the old
queue with the released buffer in front, or the old queue; after an acquire it is
a sublist of the old queue; after a sweep it is an initial segment of the old
queue; the bucket lookup, growth included, leaves it as it is. -/
theorem recency_order (k : Kconfig) (G : vc4_bo_cache → vc4_bo → Prop) (t : Int)
    (c : vc4_bo_cache) (h : ReachableAt k G t c) :
    time_ordered c ∧ (∀ b ∈ c.time_list, b.free_time ≤ t) ∧
    (∀ (kmalloc_ok : Bool) (now : Int) (bo : vc4_bo),
        0 < k.HZ → bo.import_attach = false → bo.name = 0 →
        vc4_get_cache_list_for_size k kmalloc_ok c bo.size ≠ none →
        (vc4_free_object k kmalloc_ok now c bo).cache.time_list.head? =
          some { bo with free_time := now }) ∧
    (∀ (kmalloc_ok : Bool) (now : Int) (bo : vc4_bo),
        (vc4_free_object k kmalloc_ok now c bo).cache.time_list = c.time_list ∨
        (vc4_free_object k kmalloc_ok now c bo).cache.time_list <+:
          { bo with free_time := now } :: c.time_list) ∧
    (∀ (cma : Nat → Option vc4_bo) (size : Nat),
        (vc4_bo_create k cma c size).cache.time_list.Sublist c.time_list) ∧
    (∀ now : Int, (vc4_bo_cache_free_old k now c).cache.time_list <+: c.time_list) ∧
    (∀ (kmalloc_ok : Bool) (size i : Nat) (c1 : vc4_bo_cache),
        vc4_get_cache_list_for_size k kmalloc_ok c size = some (i, c1) →
        c1.time_list = c.time_list) := by
  have hord := ordered_reachable k G t c h
  refine ⟨hord.1, hord.2, ?_, ?_, ?_, ?_, ?_⟩
  · intro ok now bo hHZ himp hname hlook
    exact free_object_time_list_head k ok now c bo hHZ himp hname hlook
  · intro ok now bo
    exact free_object_time_list_prefix k ok now c bo
  · intro cma size
    exact create_time_list_sublist k cma c size
  · intro now
    exact free_old_time_list_prefix k now c
  · intro ok size i c1 hl
    exact (lookup_frame k ok c c1 size i hl).2.1

/-- Witness for C16: buffer A is released at `t = 0`, buffer B at `t = 5`, and a
sweep runs at `t = 50`; the queue is then ordered, B before A. -/
theorem recency_order_witness :
    time_ordered
      (vc4_bo_cache_free_old k32 50
        (vc4_free_object k32 true 5
          (vc4_free_object k32 true 0 vc4_bo_cache_init boA).cache boB).cache).cache ∧
      (vc4_bo_cache_free_old k32 50
        (vc4_free_object k32 true 5
          (vc4_free_object k32 true 0 vc4_bo_cache_init boA).cache boB).cache).cache.time_list =
        [{ boB with free_time := 5 }, { boA with free_time := 0 }] :=
  have h := recency_order k32 (fun _ _ => True) 50 _
    (ReachableAt.sweep 50 (by decide)
      (ReachableAt.release 5 true boB (by decide)
        (ReachableAt.release 0 true boA (Int.le_refl 0) (ReachableAt.start 0) trivial)
        trivial))
  ⟨h.1, by decide⟩

/-! ## Acquire does not look at the age (C17) -/

/-- C17. `vc4_bo_create` takes no time and decides by the bucket alone: a hit
returns the first buffer of the bucket whatever its `free_time`, and no call of
`vc4_bo_create` frees a buffer or touches the timer, so buffers expire only in
`vc4_bo_cache_free_old`. An instance under a clock that does not go back: buffer A
is released at `t = 0` and no sweep runs; the acquire at `t = 500`, later than
`0 + 100`, is a cache hit that returns A, whose age of 500 ticks exceeds the grace
period of 100 ticks, although a sweep at that time would have evicted A. -/
theorem acquire_ignores_age :
    (∀ (k : Kconfig) (cma : Nat → Option vc4_bo) (c : vc4_bo_cache) (size : Nat)
        (bo : vc4_bo) (rest : List vc4_bo) (now : Int),
        bo_page_index k size < c.size_list_size →
        c.size_list.getD (bo_page_index k size) [] = bo :: rest →
        expired k now bo = true →
        (vc4_bo_create k cma c size).bo = some { bo with refcount := 1 } ∧
        (vc4_bo_create k cma c size).calls = []) ∧
    (∀ (k : Kconfig) (cma : Nat → Option vc4_bo) (c : vc4_bo_cache) (size : Nat),
        (∀ x, Call.drm_gem_cma_free_object x ∉ (vc4_bo_create k cma c size).calls) ∧
        (∀ t, Call.mod_timer t ∉ (vc4_bo_create k cma c size).calls) ∧
        (vc4_bo_create k cma c size).cache.time_timer = c.time_timer) ∧
    (ReachableAt k32 live 0 (vc4_free_object k32 true 0 vc4_bo_cache_init boA).cache ∧
      ReachableAt k32 live 500
        (vc4_bo_create k32 (fun _ => none)
          (vc4_free_object k32 true 0 vc4_bo_cache_init boA).cache 4096).cache ∧
      (vc4_bo_create k32 (fun _ => none)
          (vc4_free_object k32 true 0 vc4_bo_cache_init boA).cache 4096).bo =
        some { boA with free_time := 0, refcount := 1 } ∧
      (vc4_bo_create k32 (fun _ => none)
          (vc4_free_object k32 true 0 vc4_bo_cache_init boA).cache 4096).calls = [] ∧
      msecs_to_jiffies k32 1000 < 500 - ({ boA with free_time := 0 } : vc4_bo).free_time ∧
      (vc4_bo_cache_free_old k32 500
          (vc4_free_object k32 true 0 vc4_bo_cache_init boA).cache).cache.time_list = []) := by
  refine ⟨?_, ?_, ?_⟩
  · intro k cma c size bo rest now hi hb _
    rw [create_hit k cma c size bo rest hi hb]
    exact ⟨rfl, rfl⟩
  · intro k cma c size
    rcases create_cases k cma c size with ⟨bo, rest, _, _, heq⟩ | ⟨_, heq⟩
    · rw [heq]
      exact ⟨fun x hx => by simp at hx, fun t ht => by simp at ht, rfl⟩
    · rw [heq]
      exact ⟨fun x hx => by simp at hx, fun t ht => by simp at ht, rfl⟩
  · have h0 : ReachableAt k32 live 0 (vc4_free_object k32 true 0 vc4_bo_cache_init boA).cache :=
      ReachableAt.release 0 true boA (Int.le_refl 0) (ReachableAt.start 0) (by decide)
    exact ⟨h0, ReachableAt.acquire 500 _ _ (by decide) h0, by decide, by decide, by decide,
      by decide⟩

/-! ## Last in, first out within a size class (C18) -/

theorem in_class_iff (k : Kconfig) (j : Nat) (x : vc4_bo) :
    in_class k j x = true ↔ bo_page_index k x.size = j := by
  simp [in_class]

theorem lookup_bucket_cases (k : Kconfig) (kmalloc_ok : Bool) (c c1 : vc4_bo_cache)
    (size i : Nat) (h : vc4_get_cache_list_for_size k kmalloc_ok c size = some (i, c1))
    (j : Nat) :
    c1.size_list.getD j [] = c.size_list.getD j [] ∨ c1.size_list.getD j [] = [] := by
  unfold vc4_get_cache_list_for_size at h
  by_cases hle : c.size_list_size ≤ bo_page_index k size
  · cases kmalloc_ok with
    | false => simp [hle] at h
    | true =>
      simp only [hle, if_true, Option.some.injEq, Prod.mk.injEq] at h
      rw [← h.2]
      simp only [List.getD_eq_getElem?_getD, List.getElem?_append, List.getElem?_replicate,
        List.getElem?_take, List.length_take]
      split
      · next h1 =>
        left
        rw [if_pos (by omega)]
      · right
        split <;> simp
  · simp only [hle, if_false, Option.some.injEq, Prod.mk.injEq] at h
    rw [← h.2]
    exact Or.inl rfl

theorem lifo_init (k : Kconfig) : lifo k vc4_bo_cache_init := by
  intro j
  simp [vc4_bo_cache_init]

theorem lifo_create (k : Kconfig) (cma : Nat → Option vc4_bo) (c : vc4_bo_cache) (size : Nat)
    (h : lifo k c) : lifo k (vc4_bo_create k cma c size).cache := by
  rcases create_cases k cma c size with ⟨bo, rest, hi, hb, heq⟩ | ⟨_, heq⟩
  · rw [heq]
    have hkey := h (bo_page_index k size)
    rw [hb] at hkey
    obtain ⟨s, hs⟩ := hkey
    have hbo : in_class k (bo_page_index k size) bo = true := by
      have : bo ∈ c.time_list.filter (in_class k (bo_page_index k size)) := by
        rw [← hs]; simp
      exact (List.mem_filter.mp this).2
    intro j
    show (c.size_list.set (bo_page_index k size) rest).getD j [] <+:
      (c.time_list.erase bo).filter (in_class k j)
    rw [← List.erase_filter, getD_set_bucket]
    by_cases hj : bo_page_index k size = j
    · rw [if_pos ⟨hj, hi⟩, ← hj, ← hs]
      simp
    · rw [if_neg (fun hh => hj hh.1)]
      have hnot : bo ∉ c.time_list.filter (in_class k j) := by
        intro hm
        have h1 := (in_class_iff k j bo).mp (List.mem_filter.mp hm).2
        have h2 := (in_class_iff k _ bo).mp hbo
        exact hj (h2.symm.trans h1)
      rw [List.erase_of_not_mem hnot]
      exact h j
  · rw [heq]; exact h

theorem lifo_sweep_step (k : Kconfig) (c : vc4_bo_cache) (bo : vc4_bo)
    (h : c.time_list.Nodup ∧ lifo k c) (hl : c.time_list.getLast? = some bo) :
    (c.time_list.dropLast).Nodup ∧
      lifo k { c with time_list := c.time_list.dropLast,
                      size_list := list_del_size_head bo c.size_list } := by
  have happ : c.time_list.dropLast ++ [bo] = c.time_list :=
    List.dropLast_append_getLast? bo (by simp [hl])
  have hnd : (c.time_list.dropLast ++ [bo]).Nodup := by rw [happ]; exact h.1
  have hnotin : bo ∉ c.time_list.dropLast := by
    intro hm
    have := (List.nodup_append.mp hnd).2.2 hm (List.mem_singleton_self bo)
    exact this
  refine ⟨(List.nodup_append.mp hnd).1, ?_⟩
  intro j
  show (list_del_size_head bo c.size_list).getD j [] <+:
    c.time_list.dropLast.filter (in_class k j)
  rw [getD_list_del_size_head]
  have hj := h.2 j
  rw [← happ, List.filter_append] at hj
  have hnotF : bo ∉ c.time_list.dropLast.filter (in_class k j) :=
    fun hm => hnotin (List.mem_filter.mp hm).1
  by_cases hc : in_class k j bo = true
  · have hsing : List.filter (in_class k j) [bo] = [bo] := by simp [hc]
    rw [hsing] at hj
    rcases List.prefix_concat_iff.mp hj with heq | hpre
    · rw [heq, List.erase_append_right _ hnotF]
      simp
    · have : bo ∉ c.size_list.getD j [] := fun hm => hnotF (hpre.subset hm)
      rw [List.erase_of_not_mem this]
      exact hpre
  · have hsing : List.filter (in_class k j) [bo] = [] := by simp [hc]
    rw [hsing, List.append_nil] at hj
    have : bo ∉ c.size_list.getD j [] := fun hm => hnotF (hj.subset hm)
    rw [List.erase_of_not_mem this]
    exact hj

theorem lifo_free_old (k : Kconfig) (now : Int) (c : vc4_bo_cache)
    (h : c.time_list.Nodup ∧ lifo k c) :
    (vc4_bo_cache_free_old k now c).cache.time_list.Nodup ∧
      lifo k (vc4_bo_cache_free_old k now c).cache :=
  free_old_induct (fun c => c.time_list.Nodup ∧ lifo k c) k now
    (fun c bo hc hl _ => lifo_sweep_step k c bo hc hl)
    (fun _ _ hc => hc) c h

theorem lifo_release (k : Kconfig) (kmalloc_ok : Bool) (now : Int) (c : vc4_bo_cache)
    (bo : vc4_bo) (h : c.time_list.Nodup ∧ lifo k c)
    (hfresh : ∀ x ∈ c.time_list, x.id ≠ bo.id) :
    (vc4_free_object k kmalloc_ok now c bo).cache.time_list.Nodup ∧
      lifo k (vc4_free_object k kmalloc_ok now c bo).cache := by
  rcases free_object_cases k kmalloc_ok now c bo with heq | ⟨i, c1, _, _, hlook, heq⟩
  · rw [heq]; exact h
  · rw [heq]
    obtain ⟨hi, htl, _, _⟩ := lookup_frame k kmalloc_ok c c1 bo.size i hlook
    apply lifo_free_old
    constructor
    · show ({ bo with free_time := now } :: c1.time_list).Nodup
      rw [htl, List.nodup_cons]
      refine ⟨?_, h.1⟩
      intro hm
      exact hfresh _ hm rfl
    · intro j
      dsimp only
      rw [htl, getD_list_add_bucket]
      have hcj : ∀ j', c1.size_list.getD j' [] <+: c.time_list.filter (in_class k j') := by
        intro j'
        rcases lookup_bucket_cases k kmalloc_ok c c1 bo.size i hlook j' with h1 | h1
        · rw [h1]; exact h.2 j'
        · rw [h1]; exact List.nil_prefix
      have hclass : in_class k j { bo with free_time := now } = true ↔ i = j := by
        rw [in_class_iff, hi]
      by_cases hij : i = j
      · have hc := hclass.mpr hij
        rw [List.filter_cons_of_pos hc]
        by_cases hlen : i < c1.size_list.length
        · rw [if_pos ⟨hij, hlen⟩, hij]
          exact (List.prefix_cons_inj _).mpr (hcj j)
        · rw [if_neg (fun hh => hlen hh.2)]
          have : c1.size_list.getD j [] = [] :=
            List.getD_eq_default _ _ (by omega)
          rw [this]
          exact List.nil_prefix
      · have hc : ¬ in_class k j { bo with free_time := now } = true :=
          fun hh => hij (hclass.mp hh)
        rw [if_neg (fun hh => hij hh.1), List.filter_cons_of_neg hc]
        exact hcj j

theorem lifo_reachable (k : Kconfig) (t : Int) (c : vc4_bo_cache)
    (h : ReachableAt k live t c) : c.time_list.Nodup ∧ lifo k c := by
  induction h with
  | start t => exact ⟨by simp [vc4_bo_cache_init], lifo_init k⟩
  | @acquire t0 c0 now cma size _ _ ih =>
    exact ⟨List.Nodup.sublist (create_time_list_sublist k cma c0 size) ih.1,
      lifo_create k cma c0 size ih.2⟩
  | @release t0 c0 now ok bo _ _ hg ih => exact lifo_release k ok now c0 bo ih hg.1
  | @sweep t0 c0 now _ _ ih => exact lifo_free_old k now c0 ih
  | @timer t0 c0 now d _ _ _ _ ih =>
    exact lifo_free_old k now { c0 with time_timer := none } ih

/-- C18. In every state reachable from the empty cache by acquires, sweeps,
timer-fired sweeps and releases of live buffers, under a clock that does not go
back, every bucket lists its buffers in the order of the recency queue, newest
released first (`free_time` does not increase along a bucket). Hence a cache hit of
`vc4_bo_create` for `size` returns, with its reference count set to one, a buffer
`b0` of the size class of `size` such that no cached buffer of that size is
nearer to the head of the recency queue than `b0` and none has a greater
`free_time`; `b0` has exactly the requested size when every bucket holds buffers
of its own size only and `size` is a positive multiple of `PAGE_SIZE` of fewer than
`2 ^ 32` pages. -/
theorem lifo_within_size_class (k : Kconfig) (t : Int) (c : vc4_bo_cache)
    (h : ReachableAt k live t c) :
    (∀ j, (c.size_list.getD j []).Sublist c.time_list) ∧
    (∀ j, (c.size_list.getD j []).Pairwise (fun a b => b.free_time ≤ a.free_time)) ∧
    (∀ (cma : Nat → Option vc4_bo) (size : Nat) (b : vc4_bo),
        (vc4_bo_create k cma c size).calls = [] →
        (vc4_bo_create k cma c size).bo = some b →
        ∃ b0 pre post, b = { b0 with refcount := 1 } ∧
          c.size_list.getD (bo_page_index k size) [] ≠ [] ∧
          (c.size_list.getD (bo_page_index k size) []).head? = some b0 ∧
          bo_page_index k b0.size = bo_page_index k size ∧
          c.time_list = pre ++ b0 :: post ∧
          (∀ x ∈ pre, x.size ≠ size) ∧
          (∀ x ∈ c.time_list, x.size = size → x.free_time ≤ b0.free_time) ∧
          (bucket_sizes k c → page_multiple k size → size / k.PAGE_SIZE < 2 ^ 32 →
            b0.size = size)) := by
  have hl := lifo_reachable k t c h
  have hord := (ordered_reachable k live t c h).1
  have hsub : ∀ j, (c.size_list.getD j []).Sublist c.time_list :=
    fun j => (hl.2 j).sublist.trans (List.filter_sublist _)
  refine ⟨hsub, fun j => List.Pairwise.sublist (hsub j) hord, ?_⟩
  intro cma size b hcalls hbo
  rcases create_cases k cma c size with ⟨b0, rest, _, hb, heq⟩ | ⟨_, heq⟩
  · rw [heq] at hbo
    simp only [Option.some.injEq] at hbo
    have hkey := hl.2 (bo_page_index k size)
    rw [hb] at hkey
    obtain ⟨s, hs⟩ := hkey
    have hF : c.time_list.filter (in_class k (bo_page_index k size)) = b0 :: (rest ++ s) := by
      rw [← hs]; rfl
    obtain ⟨pre, post, htl, hpre, hb0, _⟩ := List.filter_eq_cons_iff.mp hF
    refine ⟨b0, pre, post, hbo.symm, ?_, ?_, (in_class_iff k _ b0).mp hb0, htl, ?_, ?_, ?_⟩
    rotate_right
    · intro hbs hm hfit
      rw [hbs (bo_page_index k size) b0 (by rw [hb]; exact List.mem_cons_self _ _)]
      exact (page_index_of_multiple hm hfit).2
    · rw [hb]; exact List.cons_ne_nil _ _
    · rw [hb]; rfl
    · intro x hx hsize
      apply hpre x hx
      rw [in_class_iff, hsize]
    · intro x hx hsize
      have hxF : x ∈ c.time_list.filter (in_class k (bo_page_index k size)) :=
        List.mem_filter.mpr ⟨hx, by rw [in_class_iff, hsize]⟩
      have hpw : (c.time_list.filter (in_class k (bo_page_index k size))).Pairwise
          (fun a b => b.free_time ≤ a.free_time) :=
        List.Pairwise.sublist (List.filter_sublist _) hord
      rw [hF] at hxF hpw
      rcases List.mem_cons.mp hxF with hx0 | hx0
      · rw [hx0]
      · exact (List.pairwise_cons.mp hpw).1 x hx0
  · rw [heq] at hcalls
    simp at hcalls

/-- Witness for C18: the one-page buffers A and D are released at `t = 0` and
`t = 5`; a request for one page returns D, which was released last. -/
theorem lifo_within_size_class_witness :
    ∃ b0 pre post,
      ({ boD with free_time := 5, refcount := 1 } : vc4_bo) = { b0 with refcount := 1 } ∧
      (vc4_free_object k32 true 5
          (vc4_free_object k32 true 0 vc4_bo_cache_init boA).cache boD).cache.size_list.getD
        (bo_page_index k32 4096) [] ≠ [] ∧
      ((vc4_free_object k32 true 5
          (vc4_free_object k32 true 0 vc4_bo_cache_init boA).cache boD).cache.size_list.getD
        (bo_page_index k32 4096) []).head? = some b0 ∧
      bo_page_index k32 b0.size = bo_page_index k32 4096 ∧
      (vc4_free_object k32 true 5
          (vc4_free_object k32 true 0 vc4_bo_cache_init boA).cache boD).cache.time_list =
        pre ++ b0 :: post ∧
      (∀ x ∈ pre, x.size ≠ 4096) ∧
      (∀ x ∈ (vc4_free_object k32 true 5
          (vc4_free_object k32 true 0 vc4_bo_cache_init boA).cache boD).cache.time_list,
        x.size = 4096 → x.free_time ≤ b0.free_time) ∧
      (bucket_sizes k32
          (vc4_free_object k32 true 5
            (vc4_free_object k32 true 0 vc4_bo_cache_init boA).cache boD).cache →
        page_multiple k32 4096 → 4096 / k32.PAGE_SIZE < 2 ^ 32 → b0.size = 4096) :=
  (lifo_within_size_class k32 5 _
    (ReachableAt.release 5 true boD (by decide)
      (ReachableAt.release 0 true boA (Int.le_refl 0) (ReachableAt.start 0) (by decide))
      (by decide))).2.2 (fun _ => none) 4096 { boD with free_time := 5, refcount := 1 }
    (by decide) (by decide)

/-! ## In-bounds bucket access (C19) -/

/-- C19. Let the capacity `n` satisfy `2 * n < 2 ^ 32` and let
`1 ≤ size / PAGE_SIZE ≤ 2 ^ 32 - 1`. Then the key of `size` is
`size / PAGE_SIZE - 1`, and whenever `vc4_get_cache_list_for_size` returns a
bucket, its number is that key and is strictly below the capacity after the call.
`vc4_bo_create`, for any size, takes a buffer from the bucket array only at a key
strictly below the capacity; at a key that is not below the capacity it only calls
the external allocator and leaves the cache as it is. The lower bound on the size
is needed: for a size below `PAGE_SIZE` the key is `2 ^ 32 - 1`, `key + 1` wraps to
0, and the bucket number that a successful lookup returns is not below the capacity
after the call. -/
theorem in_bounds_bucket_access (k : Kconfig) (c : vc4_bo_cache) (size : Nat)
    (h2n : c.size_list_size * 2 < 2 ^ 32) (hlo : 1 ≤ size / k.PAGE_SIZE)
    (hhi : size / k.PAGE_SIZE ≤ 2 ^ 32 - 1) :
    bo_page_index k size = size / k.PAGE_SIZE - 1 ∧
    (∀ (kmalloc_ok : Bool) (i : Nat) (c1 : vc4_bo_cache),
        vc4_get_cache_list_for_size k kmalloc_ok c size = some (i, c1) →
        i = size / k.PAGE_SIZE - 1 ∧ i < c1.size_list_size) ∧
    (∀ (cma : Nat → Option vc4_bo) (s : Nat),
        (vc4_bo_create k cma c s).calls = [] → bo_page_index k s < c.size_list_size) ∧
    (∀ (cma : Nat → Option vc4_bo) (s : Nat),
        c.size_list_size ≤ bo_page_index k s →
        vc4_bo_create k cma c s = ⟨cma s, c, [Call.drm_gem_cma_create s]⟩) ∧
    (∀ s, s < k.PAGE_SIZE →
        bo_page_index k s = 2 ^ 32 - 1 ∧ (bo_page_index k s + 1) % 2 ^ 32 = 0 ∧
        ∀ (kmalloc_ok : Bool) (i : Nat) (c1 : vc4_bo_cache),
          vc4_get_cache_list_for_size k kmalloc_ok c s = some (i, c1) →
          c1.size_list_size ≤ i) := by
  have hok : page_count_ok k size := by
    unfold page_count_ok; omega
  have hidx : bo_page_index k size = size / k.PAGE_SIZE - 1 := by
    unfold bo_page_index; omega
  refine ⟨hidx, ?_, ?_, ?_, ?_⟩
  · intro ok i c1 hl
    obtain ⟨hi, hlt, _⟩ := lookup_spec k ok c c1 size i hok hl
    exact ⟨hi.trans hidx, hlt⟩
  · intro cma s hcalls
    rcases create_cases k cma c s with ⟨bo, rest, hi, _, _⟩ | ⟨_, heq⟩
    · exact hi
    · rw [heq] at hcalls
      simp at hcalls
  · intro cma s hs
    exact create_miss k cma c s (Or.inl hs)
  · intro s hs
    have hdiv : s / k.PAGE_SIZE = 0 := Nat.div_eq_of_lt hs
    have hkey : bo_page_index k s = 2 ^ 32 - 1 := by
      unfold bo_page_index; rw [hdiv]; decide
    refine ⟨hkey, by rw [hkey]; decide, ?_⟩
    intro ok i c1 hl
    have hi := (lookup_frame k ok c c1 s i hl).1
    rcases lookup_size_list_size k ok c c1 s i hl with ⟨hlt, _⟩ | ⟨_, hsz⟩
    · rw [hkey] at hlt; omega
    · rw [hsz, hi, hkey]
      have h0 : new_size c.size_list_size (2 ^ 32 - 1) = c.size_list_size * 2 := by
        unfold new_size
        rw [Nat.mod_eq_of_lt h2n]
        have : (2 ^ 32 - 1 + 1) % 2 ^ 32 = 0 := by decide
        rw [this]
        exact Nat.max_eq_left (Nat.zero_le _)
      rw [h0]
      omega

/-- Witness for C19: with one bucket, the lookup for a size of three pages returns
bucket 2 of an array that then has three buckets. -/
theorem in_bounds_bucket_access_witness :
    bo_page_index k32 12288 = 12288 / k32.PAGE_SIZE - 1 ∧
      ∀ (kmalloc_ok : Bool) (i : Nat) (c1 : vc4_bo_cache),
        vc4_get_cache_list_for_size k32 kmalloc_ok
          (vc4_free_object k32 true 0 vc4_bo_cache_init boA).cache 12288 = some (i, c1) →
        i = 12288 / k32.PAGE_SIZE - 1 ∧ i < c1.size_list_size :=
  have h := in_bounds_bucket_access k32 (vc4_free_object k32 true 0 vc4_bo_cache_init boA).cache
    12288 (by decide) (by decide) (by decide)
  ⟨h.1, h.2.1⟩

/-! ## The timer covers the queue (C20) -/

theorem sweep_covers (k : Kconfig) (now : Int) (c : vc4_bo_cache)
    (hround : ∀ x, x ≤ k.round_jiffies_up x) (hclock : ∀ b ∈ c.time_list, b.free_time ≤ now) :
    timer_covers k (vc4_bo_cache_free_old k now c).cache := by
  intro hne
  rw [free_old_time_list] at hne
  refine ⟨_, by rw [free_old_time_timer, if_neg hne], ?_⟩
  intro b hb
  rw [free_old_time_list] at hb
  have h1 := hclock b ((retained_sublist k now c).subset hb)
  have h2 := hround (now + msecs_to_jiffies k 1000)
  omega

theorem timer_covers_reachable (k : Kconfig) (G : vc4_bo_cache → vc4_bo → Prop) (t : Int)
    (c : vc4_bo_cache) (hround : ∀ x, x ≤ k.round_jiffies_up x) (h : ReachableAt k G t c) :
    timer_covers k c := by
  induction h with
  | start t => intro hne; simp [vc4_bo_cache_init] at hne
  | @acquire t0 c0 now cma size _ hr ih =>
    intro hne
    have hsub := create_time_list_sublist k cma c0 size
    have hne0 : c0.time_list ≠ [] := by
      intro h0
      rw [h0] at hsub
      exact hne (List.sublist_nil.mp hsub)
    obtain ⟨d, hd, hall⟩ := ih hne0
    have htimer : (vc4_bo_create k cma c0 size).cache.time_timer = c0.time_timer := by
      rcases create_cases k cma c0 size with ⟨_, _, _, _, heq⟩ | ⟨_, heq⟩ <;> rw [heq]
    exact ⟨d, by rw [htimer, hd], fun b hb => hall b (hsub.subset hb)⟩
  | @release t0 c0 now ok bo hle hr _ ih =>
    have hclock := (ordered_reachable k G t0 c0 hr).2
    rcases free_object_cases k ok now c0 bo with heq | ⟨i, c1, _, _, hlook, heq⟩
    · rw [heq]; exact ih
    · rw [heq]
      obtain ⟨_, htl, _, _⟩ := lookup_frame k ok c0 c1 bo.size i hlook
      apply sweep_covers k now _ hround
      intro b hb
      rcases List.mem_cons.mp hb with hb1 | hb1
      · rw [hb1]
      · rw [htl] at hb1
        exact le_trans (hclock b hb1) hle
  | @sweep t0 c0 now hle hr _ =>
    have hclock := (ordered_reachable k G t0 c0 hr).2
    exact sweep_covers k now c0 hround (fun b hb => le_trans (hclock b hb) hle)
  | @timer t0 c0 now d hle _ _ hr _ =>
    have hclock := (ordered_reachable k G t0 c0 hr).2
    exact sweep_covers k now { c0 with time_timer := none } hround
      (fun b hb => le_trans (hclock b hb) hle)

theorem retained_eq_nil_of_all_expired (k : Kconfig) (now : Int) (c : vc4_bo_cache)
    (h : ∀ b ∈ c.time_list, expired k now b = true) :
    retained k now c = [] ∧ (evicted k now c).reverse = c.time_list := by
  have h1 : retained k now c = [] := by
    unfold retained
    rw [List.reverse_eq_nil_iff, List.dropWhile_eq_nil_iff]
    intro x hx
    exact h x (List.mem_reverse.mp hx)
  refine ⟨h1, ?_⟩
  have h2 := retained_append_evicted k now c
  rw [h1, List.nil_append] at h2
  exact h2

/-- C20. Assume that `round_jiffies_up` does not round down. In every state
reachable from the empty cache by releases, acquires, sweeps and timer-fired sweeps
(the firing of the timer and its sweep taken as one step, at a time that is not
before the deadline) under a clock that does not go back: if the recency queue is
not empty, a deadline is pending on the timer and it is at least
`free_time + grace` for every cached buffer. Consequently a timer-fired sweep at a
time that is not before the pending deadline passes every cached buffer to
`drm_gem_cma_free_object`, leaves the queue empty and does not arm the timer again;
in a state in which buckets and queue are in lock step it leaves every bucket
empty. -/
theorem timer_covers_queue (k : Kconfig) (G : vc4_bo_cache → vc4_bo → Prop) (t : Int)
    (c : vc4_bo_cache) (hround : ∀ x, x ≤ k.round_jiffies_up x) (h : ReachableAt k G t c) :
    (c.time_list ≠ [] →
        ∃ d, c.time_timer = some d ∧
          ∀ b ∈ c.time_list, b.free_time + msecs_to_jiffies k 1000 ≤ d) ∧
    (∀ (now d : Int), c.time_timer = some d → d ≤ now →
        (timer_fires k now c).cache.time_list = [] ∧
        (∀ b ∈ c.time_list,
          Call.drm_gem_cma_free_object b ∈ (timer_fires k now c).calls) ∧
        (∀ tm, Call.mod_timer tm ∉ (timer_fires k now c).calls) ∧
        (lockstep c → ∀ l ∈ (timer_fires k now c).cache.size_list, l = [])) := by
  have hcov := timer_covers_reachable k G t c hround h
  refine ⟨hcov, ?_⟩
  intro now d hd hle
  have hall : ∀ b ∈ c.time_list, expired k now b = true := by
    intro b hb
    have hne : c.time_list ≠ [] := List.ne_nil_of_mem hb
    obtain ⟨d1, hd1, hcover⟩ := hcov hne
    rw [hd] at hd1
    simp only [Option.some.injEq] at hd1
    have := hcover b hb
    rw [expired_iff]
    omega
  obtain ⟨hr, he⟩ := retained_eq_nil_of_all_expired k now { c with time_timer := none } hall
  have htl : (timer_fires k now c).cache.time_list = [] := by
    unfold timer_fires vc4_bo_cache_time_work
    rw [free_old_time_list, hr]
  have hfree : ∀ b ∈ c.time_list,
      Call.drm_gem_cma_free_object b ∈ (timer_fires k now c).calls := by
    intro b hb
    unfold timer_fires vc4_bo_cache_time_work
    rw [free_old_calls]
    apply List.mem_append_left
    apply List.mem_map_of_mem
    have hb2 : b ∈ (evicted k now { c with time_timer := none }).reverse := by
      rw [he]; exact hb
    exact List.mem_reverse.mp hb2
  refine ⟨htl, hfree, ?_, ?_⟩
  · intro tm htm
    unfold timer_fires vc4_bo_cache_time_work at htm
    exact ((mod_timer_mem_calls k now _ tm).mp htm).1 hr
  · intro hinv l hl
    have hinv2 : lockstep (timer_fires k now c).cache :=
      lockstep_free_old k now { c with time_timer := none } hinv
    have hperm := hinv2.2
    rw [htl] at hperm
    have hflat := List.Perm.eq_nil hperm
    apply List.eq_nil_iff_forall_not_mem.mpr
    intro x hx
    have : x ∈ (timer_fires k now c).cache.size_list.flatten :=
      List.mem_flatten.mpr ⟨l, hl, hx⟩
    rw [hflat] at this
    simp at this

/-- Witness for C20: buffer A is released at `t = 0`, which arms the timer for the
deadline 100; the timer-fired sweep at `t = 100` leaves the queue empty. -/
theorem timer_covers_queue_witness :
    (vc4_free_object k32 true 0 vc4_bo_cache_init boA).cache.time_timer = some 100 ∧
      (timer_fires k32 100
        (vc4_free_object k32 true 0 vc4_bo_cache_init boA).cache).cache.time_list = [] :=
  have h := timer_covers_queue k32 (fun _ _ => True) 0
    (vc4_free_object k32 true 0 vc4_bo_cache_init boA).cache
    (by intro x; show x ≤ (x + 99) / 100 * 100; omega)
    (ReachableAt.release 0 true boA (Int.le_refl 0) (ReachableAt.start 0) trivial)
  ⟨by decide, (h.2 100 100 (by decide) (Int.le_refl 100)).1⟩

end VC4
